import Mathlib

/-!
Verification development for the dbcube schema-builder core: the cube-file
validator (`CubeValidator`), the dependency resolver (`DependencyResolver`)
and the orchestration passes (`Schema.refreshTables` / `Schema.freshTables`).

The TypeScript sources are shallowly embedded: each JS function that the
claims touch becomes a Lean function over `List Char` / `List String`
(file contents are passed in explicitly, since file-system reads are
effectful).  JS `Map`s are modelled as insertion-ordered association lists,
and regular-expression scans are modelled as explicit character scanners
that follow the engine's leftmost-match / greedy semantics.
-/

namespace SchemaBuilder

/-- The `{` character (written via its code point). -/
def lbrace : Char := Char.ofNat 123

/-- The `}` character (written via its code point). -/
def rbrace : Char := Char.ofNat 125

/-- The `"` character. -/
def dquote : Char := Char.ofNat 34

/-- The `'` character. -/
def squote : Char := Char.ofNat 39

/-- JS `\s` (whitespace) restricted to the characters that can occur in a
line of a text file split on newlines. -/
def isSpace (c : Char) : Bool :=
  c = ' ' ∨ c = '\t' ∨ c = '\r' ∨ c = '\x0c' ∨ c = '\x0b'

/-- JS `\w` word characters `[A-Za-z0-9_]`. -/
def isWordChar (c : Char) : Bool :=
  ('a' ≤ c ∧ c ≤ 'z') ∨ ('A' ≤ c ∧ c ≤ 'Z') ∨ ('0' ≤ c ∧ c ≤ '9') ∨ c = '_'

/-- JS `String.prototype.trim` on a list of characters. -/
def trimL (s : List Char) : List Char :=
  ((s.dropWhile isSpace).reverse.dropWhile isSpace).reverse

/-- Boolean prefix test on character lists. -/
def isPrefixL : List Char → List Char → Bool
  | [], _ => true
  | _ :: _, [] => false
  | a :: as, b :: bs => a = b && isPrefixL as bs

/-- Helper for `includesL`: does `pat` occur starting at some position? -/
def includesAux (pat : List Char) : List Char → Bool
  | [] => isPrefixL pat []
  | c :: rest => isPrefixL pat (c :: rest) || includesAux pat rest

/-- JS `String.prototype.includes` (substring containment). -/
def includesL (s pat : List Char) : Bool :=
  includesAux pat s

/-- JS `content.split('\n')`. -/
def splitLines : List Char → List (List Char)
  | [] => [[]]
  | c :: rest =>
    match splitLines rest with
    | [] => [[c]]
    | h :: t => if c = '\n' then [] :: h :: t else (c :: h) :: t

/-- Number of occurrences of a character in a line
(JS `(line.match(/x/g) || []).length`). -/
def countChar (s : List Char) (c : Char) : Int :=
  (s.count c : Int)

/-- First-insertion key order of a JS `Map` populated by `set` calls with
the given key sequence: the first occurrence of each key keeps its position,
later `set`s on the same key do not move it. -/
def insertionKeys : List String → List String
  | [] => []
  | n :: rest => n :: (insertionKeys rest).filter (fun m => ¬ m = n)

end SchemaBuilder

namespace DependencyResolver

open SchemaBuilder

/-- `TableDependency` from DependencyResolver.ts. -/
structure TableDependency where
  tableName : String
  filePath : String
  dependencies : List String
  deriving DecidableEq, Repr

/-- `ExecutionOrder` from DependencyResolver.ts. -/
structure ExecutionOrder where
  tables : List String
  seeders : List String
  timestamp : String
  deriving DecidableEq, Repr

/-- Search for the regex `/foreign\s*:\s*\{/` anywhere in a line:
literal `foreign`, optional whitespace, `:`, optional whitespace, `{`. -/
def matchForeignOpenAt (s : List Char) : Bool :=
  if s.take 7 = ('f' :: 'o' :: 'r' :: 'e' :: 'i' :: 'g' :: 'n' :: []) then
    match (s.drop 7).dropWhile isSpace with
    | ':' :: r => match r.dropWhile isSpace with
      | c :: _ => c = lbrace
      | [] => false
    | _ => false
  else false

/-- `.test` of `/foreign\s*:\s*\{/`: true iff the pattern matches at some
position of the line (the engine tries every start position). -/
def testForeignOpen : List Char → Bool
  | [] => false
  | c :: rest => matchForeignOpenAt (c :: rest) || testForeignOpen rest

/-- Attempt the regex `/table\s*:\s*["']([^"']+)["']/` at the start of `s`,
returning the captured table name.  The quantifiers need no backtracking
model: `\s*` is followed by a non-space requirement and `[^"']+` is maximal
because the closing class `["']` is disjoint from it. -/
def matchTableRefAt (s : List Char) : Option String :=
  if s.take 5 = ('t' :: 'a' :: 'b' :: 'l' :: 'e' :: []) then
    match (s.drop 5).dropWhile isSpace with
    | ':' :: r =>
      match r.dropWhile isSpace with
      | q :: r2 =>
        if q = dquote ∨ q = squote then
          match r2.span (fun c => ¬ (c = dquote ∨ c = squote)) with
          | (w, q2 :: _) =>
            if w = [] then none
            else if q2 = dquote ∨ q2 = squote then some (String.mk w) else none
          | (_, []) => none
        else none
      | [] => none
    | _ => none
  else none

/-- First match of `/table\s*:\s*["']([^"']+)["']/` in a line
(`line.match(...)` without the global flag). -/
def matchTableRef : List Char → Option String
  | [] => none
  | c :: rest =>
    match matchTableRefAt (c :: rest) with
    | some w => some w
    | none => matchTableRef rest

/-- Scanner state of `extractForeignKeyReferences`. -/
structure FKState where
  deps : List String
  insideForeignKey : Bool
  braceCount : Int
  deriving Repr

/-- One iteration of the line loop of
`DependencyResolver.extractForeignKeyReferences`. -/
def fkLineStep (st : FKState) (line : List Char) : FKState :=
  if testForeignOpen line then
    match matchTableRef line with
    | some t => { deps := st.deps ++ [t], insideForeignKey := false, braceCount := 0 }
    | none => { st with insideForeignKey := true, braceCount := 1 }
  else if st.insideForeignKey then
    let bc := st.braceCount + countChar line lbrace - countChar line rbrace
    let deps' := match matchTableRef line with
      | some t => st.deps ++ [t]
      | none => st.deps
    { deps := deps', insideForeignKey := ¬ bc = 0, braceCount := bc }
  else st

/-- `DependencyResolver.extractForeignKeyReferences`, with the file content
passed in place of the file-system read. -/
def extractForeignKeyReferences (content : List Char) : List String :=
  ((splitLines content).foldl fkLineStep ⟨[], false, 0⟩).deps

/-- Key order of the `inDegree` map of `topologicalSort` (and of `graph` /
`tableMap`): first-occurrence order of the table names. -/
def knownNames (deps : List TableDependency) : List String :=
  insertionKeys (deps.map (fun d => d.tableName))

/-- The in-degree of table `n` after the counting loop of
`topologicalSort`: every dependency occurrence (over all entries named `n`)
whose target is a known table name adds one. -/
def initDeg (deps : List TableDependency) (n : String) : Int :=
  (((deps.filter (fun d => d.tableName = n)).map
    (fun d => ((d.dependencies.filter
      (fun m => m ∈ deps.map (fun e => e.tableName))).length : Int))).sum)

/-- `graph.get(n) || []`: the dependency list stored for `n`
(the last `set` wins when two entries share a name). -/
def graphGet (deps : List TableDependency) (n : String) : List String :=
  match deps.reverse.find? (fun d => d.tableName = n) with
  | some d => d.dependencies
  | none => []

/-- The inner `for (const neighbor of currentDeps)` loop of
`topologicalSort`: decrement the in-degree of every known neighbor and
enqueue it when its new degree is exactly zero. -/
def stepNeighbors (names : List String) :
    List String → (String → Int) → List String → ((String → Int) × List String)
  | [], deg, queue => (deg, queue)
  | m :: rest, deg, queue =>
    if m ∈ names then
      let d := deg m - 1
      let deg' := fun x => if x = m then d else deg x
      if d = 0 then stepNeighbors names rest deg' (queue ++ [m])
      else stepNeighbors names rest deg' queue
    else stepNeighbors names rest deg queue

/-- The `while (queue.length > 0)` loop of `topologicalSort`.  The loop is
written with explicit fuel; `deps.length + 1` fuel is always enough because
every iteration dequeues an element and, as proved below
(`kahnLoop_nodup_subset`), the elements ever enqueued are pairwise distinct
table names, so the number of iterations is bounded by the number of
tables. -/
def kahnLoop (deps : List TableDependency) (names : List String) :
    Nat → List String → List String → (String → Int) → List String
  | 0, _, result, _ => result
  | _ + 1, [], result, _ => result
  | fuel + 1, q :: queue, result, deg =>
    let p := stepNeighbors names (graphGet deps q) deg queue
    kahnLoop deps names fuel p.2 (result ++ [q]) p.1

/-- The result of Kahn's loop of `topologicalSort` (before the
circular-dependency completion step). -/
def kahnResult (deps : List TableDependency) : List String :=
  kahnLoop deps (knownNames deps) (deps.length + 1)
    ((knownNames deps).filter (fun n => initDeg deps n = 0)) [] (initDeg deps)

/-- The completion loop of `topologicalSort`: append every table name that
Kahn's loop did not emit, in original entry order. -/
def completeResult : List TableDependency → List String → List String
  | [], result => result
  | d :: rest, result =>
    if d.tableName ∈ result then completeResult rest result
    else completeResult rest (result ++ [d.tableName])

/-- `DependencyResolver.topologicalSort`. -/
def topologicalSort (deps : List TableDependency) : List String :=
  let result := kahnResult deps
  if result.length = deps.length then result else completeResult deps result

/-- Cube-file categories (`'table' | 'seeder'`). -/
inductive CubeType
  | table
  | seeder
  deriving DecidableEq, Repr

/-- `DependencyResolver.resolveDependencies`, with the per-file name/content
extraction already performed: each input file is given as its resolved table
name together with its content.  The `saveExecutionOrder` call writes the
returned record to disk unchanged; the timestamp comes from the clock and is
passed in. -/
def resolveDependencies (files : List (String × String × String))
    (cubeType : CubeType) (timestamp : String) : ExecutionOrder :=
  let tableDependencies := files.map
    (fun f => TableDependency.mk f.1 f.2.1 (extractForeignKeyReferences f.2.2.data))
  let orderedTables := topologicalSort tableDependencies
  { tables := if cubeType = CubeType.table then orderedTables else []
    seeders := if cubeType = CubeType.seeder then orderedTables else []
    timestamp := timestamp }

/-- JS `Map.prototype.set` on an insertion-ordered association list:
update in place when the key exists, append otherwise. -/
def mapSet (m : List (String × String)) (k v : String) : List (String × String) :=
  if m.any (fun p => p.1 = k) then
    m.map (fun p => if p.1 = k then (k, v) else p)
  else m ++ [(k, v)]

/-- The `fileMap` of `orderCubeFiles`: table name (as resolved by
`extracTableNameFromCube` with the basename fallback, abstracted as
`nameOf`) mapped to the file, the last file with a given name winning. -/
def buildFileMap (nameOf : String → String) (files : List String) :
    List (String × String) :=
  files.foldl (fun m f => mapSet m (nameOf f) f) []

/-- The first reorder loop of `orderCubeFiles`: walk the stored table order,
move each file found in the map to the output and delete its entry. -/
def takeOrdered : List String → List (String × String) →
    List String × List (String × String)
  | [], m => ([], m)
  | n :: rest, m =>
    if m.any (fun p => p.1 = n) then
      match m.find? (fun p => p.1 = n) with
      | some p =>
        let r := takeOrdered rest (m.filter (fun q => ¬ q.1 = n))
        (p.2 :: r.1, r.2)
      | none => takeOrdered rest m
    else takeOrdered rest m

/-- `DependencyResolver.orderCubeFiles`.  `stored` is the result of
`loadExecutionOrder` (`none` when no order file exists) and `nameOf ct`
is the per-category table-name resolution for a file.  The stored `tables`
sequence is used for both categories (`const orderList =
executionOrder.tables`). -/
def orderCubeFiles (nameOf : CubeType → String → String) (ct : CubeType)
    (stored : Option ExecutionOrder) (cubeFiles : List String) : List String :=
  match stored with
  | none => cubeFiles
  | some eo =>
    let m := buildFileMap (nameOf ct) cubeFiles
    let r := takeOrdered eo.tables m
    r.1 ++ r.2.map (fun p => p.2)

/-- Position of the first occurrence of a name in a list. -/
def firstIdx (l : List String) (a : String) : Option Nat :=
  l.findIdx? (fun x => x = a)

/-- Whether `a` occurs (first) strictly before `b` in `l`. -/
def precedesIn (l : List String) (a b : String) : Bool :=
  match firstIdx l a, firstIdx l b with
  | some i, some j => i < j
  | _, _ => false

/-- Loop invariant of Kahn's loop in `topologicalSort`: the emitted result
together with the pending queue lists pairwise-distinct known table names,
and a known name is in the result-or-queue exactly when its current degree
has reached zero (degrees only ever decrease, and can go negative). -/
def KahnInv (names result queue : List String) (deg : String → Int) : Prop :=
  (result ++ queue).Nodup ∧
  (∀ n, n ∈ result ++ queue → n ∈ names) ∧
  (∀ n, n ∈ names → (n ∈ result ++ queue ↔ deg n ≤ 0))

/-- Content of a cube file whose table `C` references table `B` through a
`foreign` block. -/
def cubeFileC : String :=
  "@database(\"app\")\n@columns(\x7b\n  refB: \x7b\n    foreign: \x7b\n      table: \"B\";\n    \x7d;\n  \x7d;\n\x7d)"

/-- Content of a cube file whose table `B` references table `A` through a
`foreign` block. -/
def cubeFileB : String :=
  "@database(\"app\")\n@columns(\x7b\n  refA: \x7b\n    foreign: \x7b\n      table: \"A\";\n    \x7d;\n  \x7d;\n\x7d)"

/-- Content of a cube file for table `A` with no foreign references. -/
def cubeFileA : String :=
  "@database(\"app\")\n@columns(\x7b\n  id: \x7b\n    type: \"int\";\n  \x7d;\n\x7d)"

/-- Well-formedness of the `fileMap` of `orderCubeFiles`: keys are pairwise
distinct and every entry's key is the resolved table name of its value. -/
def MapInv (nameOf : String → String) (m : List (String × String)) : Prop :=
  (m.map Prod.fst).Nodup ∧ ∀ p ∈ m, p.1 = nameOf p.2

end DependencyResolver

namespace CubeValidator

open SchemaBuilder

/-- `validTypes` from CubeValidator.ts. -/
def validTypes : List String :=
  ["varchar", "int", "string", "text", "boolean", "date", "datetime",
    "timestamp", "decimal", "float", "double", "enum", "json"]

/-- `validOptions` from CubeValidator.ts. -/
def validOptions : List String :=
  ["not null", "primary", "autoincrement", "unique", "zerofill", "index",
    "required", "unsigned"]

/-- `validProperties` from CubeValidator.ts. -/
def validProperties : List String :=
  ["type", "length", "options", "value", "defaultValue", "foreign",
    "enumValues", "description"]

/-- `knownAnnotations` from CubeValidator.ts. -/
def knownAnnotations : List String :=
  ["database", "table", "meta", "columns", "fields", "dataset", "beforeAdd",
    "afterAdd", "beforeUpdate", "afterUpdate", "beforeDelete", "afterDelete",
    "compute", "column"]

/-- The kind of a validation error, one constructor per distinct `errors.push`
message template of CubeValidator.ts. -/
inductive VKind
  | unknownAnnot (name : String)
  | invalidType (t : String)
  | varcharNoLength
  | invalidSyntaxOption (tok : String)
  | emptyOption
  | invalidOption (o : String)
  | incompatibleOption (o t : String)
  | invalidForeignProperty (p : String)
  | invalidProperty (p : String)
  | missingValue (p : String)
  | missingTypeProperty (col : String)
  | mismatchedQuotes
  | badAnnotationFormat
  | badMetaFormat
  | missingDatabase
  | missingColumns
  | readFailure (msg : String)
  deriving DecidableEq, Repr

/-- A `ProcessError` produced by the validator: the `error` message string
is rendered from the kind by `renderMessage`. -/
structure VError where
  itemName : String
  kind : VKind
  lineNumber : Nat
  deriving DecidableEq, Repr

/-- The exact message text of each error kind, as pushed by
CubeValidator.ts. -/
def renderMessage : VKind → String
  | .unknownAnnot a =>
    "Unknown annotation '@" ++ a ++ "'. Valid annotations: " ++
      String.intercalate ", " knownAnnotations
  | .invalidType t =>
    "Invalid data type '" ++ t ++ "'. Valid types: " ++
      String.intercalate ", " validTypes
  | .varcharNoLength => "VARCHAR type requires a length specification"
  | .invalidSyntaxOption tok =>
    "Invalid syntax '" ++ tok ++
      "' in options array. All values must be quoted strings"
  | .emptyOption =>
    "Empty option found in options array. All options must have a value"
  | .invalidOption o =>
    "Invalid option '" ++ o ++ "'. Valid options: " ++
      String.intercalate ", " validOptions
  | .incompatibleOption o t =>
    "Option '" ++ o ++ "' is not compatible with type '" ++ t ++ "'"
  | .invalidForeignProperty p =>
    "Invalid foreign key property '" ++ p ++
      "'. Valid foreign key properties: table, column"
  | .invalidProperty p =>
    "Invalid property '" ++ p ++ "'. Valid properties: " ++
      String.intercalate ", " validProperties
  | .missingValue p => "Property '" ++ p ++ "' is missing a value"
  | .missingTypeProperty col =>
    "Column '" ++ col ++ "' is missing required 'type' property"
  | .mismatchedQuotes => "Mismatched quotes detected"
  | .badAnnotationFormat =>
    "Invalid annotation syntax. Expected format: @annotation(\"value\")"
  | .badMetaFormat =>
    "Invalid @meta syntax. Expected format: @meta(\x7b ... \x7d)"
  | .missingDatabase => "Missing required @database annotation"
  | .missingColumns => "Table cube files require @columns annotation"
  | .readFailure msg => "Failed to read cube file: " ++ msg

/-- All matches of the global regex `/@(\w+)/g` (`validateAnnotations`).
The scanner advances one character at a time; this agrees with the engine's
continue-after-match behaviour because a match span (`@` followed by word
characters) cannot contain the start of another match. -/
def scanAnnotations : List Char → List String
  | [] => []
  | c :: rest =>
    if c = '@' then
      match rest.span isWordChar with
      | ([], _) => scanAnnotations rest
      | (w, _) => String.mk w :: scanAnnotations rest
    else scanAnnotations rest

/-- One attempt of the regex `/type:\s*["'](\w+)["']/` at the start of `s`
(`validateDataTypes`), returning the captured type name.  The greedy
quantifiers need no backtracking model because each is followed by a
character class disjoint from it. -/
def matchTypeAt (s : List Char) : Option String :=
  if s.take 5 = "type:".data then
    match (s.drop 5).dropWhile isSpace with
    | q :: r2 =>
      if q = dquote ∨ q = squote then
        match r2.span isWordChar with
        | ([], _) => none
        | (w, q2 :: _) =>
          if q2 = dquote ∨ q2 = squote then some (String.mk w) else none
        | (_, []) => none
      else none
    | [] => none
  else none

/-- All matches of `/type:\s*["'](\w+)["']/g`.  Advancing one character at
a time agrees with the engine because the literal `type:` cannot start
inside a match span. -/
def scanTypes : List Char → List String
  | [] => []
  | c :: rest =>
    match matchTypeAt (c :: rest) with
    | some w => w :: scanTypes rest
    | none => scanTypes rest

/-- The character class `[^",\s]` of the invalid-option-syntax regex. -/
def isOptionSpecial (c : Char) : Bool :=
  c = dquote ∨ c = ',' ∨ isSpace c

/-- Whether a character list contains no double quote — the negative
lookahead `(?![^"]*")` succeeds on a remainder exactly when the remainder
contains no `"` at all. -/
def noDquote (s : List Char) : Bool :=
  s.all (fun c => ¬ c = dquote)

/-- Backtracking of the greedy `[^",\s]+` against the lookahead: try the
maximal run first, then shorter runs, moving the dropped characters back in
front of the remainder (`rrun` is the candidate run reversed). -/
def shrinkRun : List Char → List Char → Option (List Char)
  | [], _ => none
  | c :: rrun, rest =>
    if noDquote rest then some ((c :: rrun).reverse)
    else shrinkRun rrun (c :: rest)

/-- First match of `/[^",\s]+(?![^"]*")/` (`validateColumnOptions`): at
each start position take the maximal special-free run and backtrack it
against the lookahead. -/
def findInvalidToken : List Char → Option String
  | [] => none
  | c :: rest =>
    if ¬ isOptionSpecial c then
      match shrinkRun ((c :: rest).takeWhile (fun d => ¬ isOptionSpecial d)).reverse
          ((c :: rest).dropWhile (fun d => ¬ isOptionSpecial d)) with
      | some run => some (String.mk run)
      | none => findInvalidToken rest
    else findInvalidToken rest

/-- State machine for the global regex `/"([^"]*)"/g` followed by
`.replace(/"/g, '')`: collect the bodies of completed double-quoted
segments (an unterminated opening quote yields no further matches). -/
def extractQuotedGo : List Char → Option (List Char) → List String
  | [], _ => []
  | c :: rest, none =>
    if c = dquote then extractQuotedGo rest (some [])
    else extractQuotedGo rest none
  | c :: rest, some acc =>
    if c = dquote then String.mk acc.reverse :: extractQuotedGo rest none
    else extractQuotedGo rest (some (c :: acc))

/-- `optionsContent.match(/"([^"]*)"/g)` with the quotes stripped. -/
def extractQuoted (s : List Char) : List String :=
  extractQuotedGo s none

/-- The tail `\s*;?\s*$` of the options-line regex. -/
def suffixSemiOk (s : List Char) : Bool :=
  match s.dropWhile isSpace with
  | [] => true
  | c :: r => c = ';' ∧ r.all isSpace

/-- The greedy `(.*)\]` of `/^\s*options\s*:\s*\[(.*)\]\s*;?\s*$/`: capture
up to the **last** `]` whose suffix matches `\s*;?\s*$`. -/
def greedyCapture : List Char → Option (List Char)
  | [] => none
  | c :: rest =>
    match greedyCapture rest with
    | some cap => some (c :: cap)
    | none => if c = ']' ∧ suffixSemiOk rest then some [] else none

/-- The anchored options-line regex of `validateColumnOptions`, returning
the trimmed bracket content. -/
def parseOptionsLine (line : List Char) : Option (List Char) :=
  if (line.dropWhile isSpace).take 7 = "options".data then
    match (((line.dropWhile isSpace).drop 7).dropWhile isSpace) with
    | ':' :: r =>
      match r.dropWhile isSpace with
      | '[' :: r2 => (greedyCapture r2).map trimL
      | _ => none
    | _ => none
  else none

/-- `[a-zA-Z_]`, the first character of a property/column identifier. -/
def isAlphaUnderscore (c : Char) : Bool :=
  ('a' ≤ c ∧ c ≤ 'z') ∨ ('A' ≤ c ∧ c ≤ 'Z') ∨ c = '_'

/-- Parse `[a-zA-Z_][a-zA-Z0-9_]*` at the start of `s`, returning the
identifier and the remainder. -/
def parseIdent (s : List Char) : Option (List Char × List Char) :=
  match s with
  | [] => none
  | c :: rest =>
    if isAlphaUnderscore c then
      some (c :: rest.takeWhile isWordChar, rest.dropWhile isWordChar)
    else none

/-- The column-opening regex `/^\s*([a-zA-Z_][a-zA-Z0-9_]*)\s*:\s*\{/`,
returning the column name. -/
def columnOpenName (line : List Char) : Option String :=
  match parseIdent (line.dropWhile isSpace) with
  | none => none
  | some (name, r) =>
    match r.dropWhile isSpace with
    | ':' :: r2 =>
      match r2.dropWhile isSpace with
      | c :: _ => if c = lbrace then some (String.mk name) else none
      | [] => none
    | _ => none

/-- `.test` of the column-opening regex. -/
def isColumnOpen (line : List Char) : Bool :=
  (columnOpenName line).isSome

/-- The property-key regex `/^\s*([a-zA-Z_][a-zA-Z0-9_]*)\s*:/`. -/
def propertyKey (line : List Char) : Option String :=
  match parseIdent (line.dropWhile isSpace) with
  | none => none
  | some (name, r) =>
    match r.dropWhile isSpace with
    | ':' :: _ => some (String.mk name)
    | _ => none

/-- The incomplete-property regex `/^\s*([a-zA-Z_][a-zA-Z0-9_]*)\s*:\s*$/`. -/
def missingValueTest (line : List Char) : Bool :=
  match parseIdent (line.dropWhile isSpace) with
  | none => false
  | some (_, r) =>
    match r.dropWhile isSpace with
    | ':' :: r2 => r2.all isSpace
    | _ => false

/-- The type-declaration regex `/^\s*type\s*:\s*"([^"]+)"/` used by
`getColumnTypeForOptions`. -/
def matchTypeDecl (line : List Char) : Option String :=
  if (line.dropWhile isSpace).take 4 = "type".data then
    match ((line.dropWhile isSpace).drop 4).dropWhile isSpace with
    | ':' :: r =>
      match r.dropWhile isSpace with
      | c :: r2 =>
        if c = dquote then
          match r2.span (fun d => ¬ d = dquote) with
          | ([], _) => none
          | (w, q :: _) => if q = dquote then some (String.mk w) else none
          | (_, []) => none
        else none
      | [] => none
    | _ => none
  else none

/-- The body-scan regex `/^\s*type\s*:/` of
`validateRequiredColumnProperties`. -/
def typeKeyTest (line : List Char) : Bool :=
  if (line.dropWhile isSpace).take 4 = "type".data then
    match ((line.dropWhile isSpace).drop 4).dropWhile isSpace with
    | ':' :: _ => true
    | _ => false
  else false

/-- Backward scan of `getColumnTypeForOptions` over the given index list
(higher indices first): return the first declared type, stop at a
column-opening line. -/
def columnTypeScan (lines : List (List Char)) : List Nat → String
  | [] => "unknown"
  | i :: rest =>
    match matchTypeDecl (lines.getD i []) with
    | some t => t
    | none =>
      if isColumnOpen (lines.getD i []) then "unknown"
      else columnTypeScan lines rest

/-- `getColumnTypeForOptions(lines, optionsLineIndex)`: scan upward from
the line above the options line. -/
def getColumnTypeForOptions (lines : List (List Char)) (optionsLineIndex : Nat) :
    String :=
  columnTypeScan lines ((List.range optionsLineIndex).reverse)

/-- `compatibilityRules` from CubeValidator.ts. -/
def compatibilityRules (o : String) : Option (List String) :=
  if o = "zerofill" then some ["int", "decimal", "float", "double"]
  else if o = "unsigned" then some ["int", "decimal", "float", "double"]
  else if o = "autoincrement" then some ["int"]
  else if o = "primary" then some ["int", "varchar", "string"]
  else if o = "not null" then some ["int", "varchar", "string", "text",
    "boolean", "date", "datetime", "timestamp", "decimal", "float", "double"]
  else if o = "unique" then some ["int", "varchar", "string", "text"]
  else if o = "index" then some ["int", "varchar", "string", "text", "date",
    "datetime", "timestamp"]
  else if o = "required" then some ["int", "varchar", "string", "text",
    "boolean", "date", "datetime", "timestamp", "decimal", "float", "double"]
  else none

/-- `isOptionCompatibleWithType` from CubeValidator.ts. -/
def isOptionCompatibleWithType (o t : String) : Bool :=
  match compatibilityRules o with
  | none => true
  | some ts => t ∈ ts

/-- Opens minus closes of braces on a line. -/
def braceDelta (line : List Char) : Int :=
  countChar line lbrace - countChar line rbrace

/-- The inner brace walk of `isInsideForeignKeyObject`: from the `foreign`
line `i`, accumulate brace deltas over the given index list; if the count
returns to zero strictly after `i` the position is outside the object,
otherwise it is inside exactly when the final count is positive. -/
def foreignBraceWalk (lines : List (List Char)) (i : Nat) :
    List Nat → Int → Bool
  | [], count => count > 0
  | j :: rest, count =>
    let c := count + braceDelta (lines.getD j [])
    if c = 0 ∧ i < j then false else foreignBraceWalk lines i rest c

/-- The backward scan of `isInsideForeignKeyObject` (indices in decreasing
order): find a `foreign: {` line and walk its braces, or stop at a closing
line. -/
def foreignBackScan (lines : List (List Char)) (lineIndex : Nat) :
    List Nat → Bool
  | [] => false
  | i :: rest =>
    if DependencyResolver.testForeignOpen (lines.getD i []) then
      foreignBraceWalk lines i ((List.range (lineIndex + 1)).drop i) 0
    else if trimL (lines.getD i []) = [rbrace] ∨
        includesL (lines.getD i []) (rbrace :: [';']) then false
    else foreignBackScan lines lineIndex rest

/-- `isInsideForeignKeyObject(content, lineIndex)` from CubeValidator.ts. -/
def isInsideForeignKeyObject (lines : List (List Char)) (lineIndex : Nat) :
    Bool :=
  foreignBackScan lines lineIndex ((List.range (lineIndex + 1)).reverse)

/-- The end-of-block scan of `isInsideColumnsBlock`: starting at the
`@columns` line `i`, the first index `j > i` where the running brace count
returns to zero. -/
def columnsEndScan (lines : List (List Char)) (i : Nat) :
    List Nat → Int → Option Nat
  | [], _ => none
  | j :: rest, count =>
    let c := count + braceDelta (lines.getD j [])
    if c = 0 ∧ i < j then some j else columnsEndScan lines i rest c

/-- `isInsideColumnsBlock(content, lineIndex)` from CubeValidator.ts. -/
def isInsideColumnsBlock (lines : List (List Char)) (lineIndex : Nat) : Bool :=
  match lines.findIdx? (fun l => includesL l "@columns".data) with
  | none => false
  | some i =>
    match columnsEndScan lines i ((List.range lines.length).drop i) 0 with
    | none => false
    | some e => i < lineIndex ∧ lineIndex < e

/-- `validateAnnotations` for one line. -/
def validateAnnotationsL (fileName : String) (line : List Char) (n : Nat) :
    List VError :=
  (scanAnnotations line).filterMap (fun a =>
    if a ∈ knownAnnotations then none
    else some ⟨fileName, .unknownAnnot a, n⟩)

/-- `validateDataTypes` for one line (`lines` is the whole file, for the
five-line `length:` window of the varchar rule). -/
def validateDataTypesL (fileName : String) (lines : List (List Char))
    (line : List Char) (n : Nat) : List VError :=
  ((scanTypes line).filterMap (fun t =>
    if t ∈ validTypes then none else some ⟨fileName, .invalidType t, n⟩))
  ++ (if includesL line "type: \"varchar\"".data then
        (if ((lines.drop (n - 1)).take 5).any
            (fun l => includesL l "length:".data) then []
         else [⟨fileName, .varcharNoLength, n⟩])
      else [])

/-- JS `String.prototype.trim` on a `String`. -/
def trimS (s : String) : String := String.mk (trimL s.data)

/-- The per-entry checks of the `optionMatches.forEach` loop of
`validateColumnOptions`. -/
def optionEntryErrors (fileName : String) (n : Nat) (columnType : String)
    (o : String) : List VError :=
  if trimS o = "" then [⟨fileName, .emptyOption, n⟩]
  else if o ∈ validOptions then
    (if ¬ columnType = "unknown" ∧ ¬ isOptionCompatibleWithType o columnType
     then [⟨fileName, .incompatibleOption o columnType, n⟩] else [])
  else [⟨fileName, .invalidOption o, n⟩]

/-- `validateColumnOptions` for one line. -/
def validateColumnOptionsL (fileName : String) (lines : List (List Char))
    (line : List Char) (n : Nat) : List VError :=
  match parseOptionsLine line with
  | none => []
  | some content =>
    match findInvalidToken content with
    | some tok => [⟨fileName, .invalidSyntaxOption tok, n⟩]
    | none =>
      (extractQuoted content).flatMap
        (optionEntryErrors fileName n (getColumnTypeForOptions lines (n - 1)))

/-- `validateColumnProperties` for one line. -/
def validateColumnPropertiesL (fileName : String) (lines : List (List Char))
    (line : List Char) (n : Nat) : List VError :=
  match propertyKey line with
  | none => []
  | some p =>
    if isColumnOpen line then []
    else if isInsideForeignKeyObject lines (n - 1) then
      (if p ∈ (["table", "column"] : List String) then []
       else [⟨fileName, .invalidForeignProperty p, n⟩])
    else
      (if isInsideColumnsBlock lines (n - 1) then
        (if p ∈ validProperties then [] else [⟨fileName, .invalidProperty p, n⟩])
       else [])
      ++ (if missingValueTest line then [⟨fileName, .missingValue p, n⟩] else [])

/-- The closing-line regex `/^\s*\}\s*;?\s*$/`. -/
def closingLineTest (line : List Char) : Bool :=
  match line.dropWhile isSpace with
  | [] => false
  | c :: r =>
    (c = rbrace : Bool) &&
      (match r.dropWhile isSpace with
        | [] => true
        | ';' :: r2 => r2.all isSpace
        | _ => false)

/-- Brace balance over the index interval `[i, n-1]` used by the backward
column search of `validateRequiredColumnProperties`. -/
def bracesBalanced (lines : List (List Char)) (i n : Nat) : Bool :=
  ((((List.range n).drop i)).map (fun j => braceDelta (lines.getD j []))).sum = 0

/-- The backward search of `validateRequiredColumnProperties` (indices
below the closing line, in decreasing order): the nearest column-opening
line whose braces balance against the closing line. -/
def findColumnStart (lines : List (List Char)) (n : Nat) :
    List Nat → Option (Nat × String)
  | [] => none
  | i :: rest =>
    match columnOpenName (lines.getD i []) with
    | some name =>
      if bracesBalanced lines i n then some (i, name)
      else findColumnStart lines n rest
    | none => findColumnStart lines n rest

/-- `validateRequiredColumnProperties` for line number `n`. -/
def validateRequiredL (fileName : String) (lines : List (List Char)) (n : Nat) :
    List VError :=
  if ¬ closingLineTest (lines.getD (n - 1) []) then []
  else
    match findColumnStart lines n ((List.range (n - 1)).reverse) with
    | none => []
    | some (colStart, name) =>
      if ¬ ((List.range (n - 1)).drop (colStart + 1)).any
          (fun i => typeKeyTest (lines.getD i [])) ∧
          ¬ name = "foreign" ∧ ¬ name = "defaultValue" then
        [⟨fileName, .missingTypeProperty name, colStart + 1⟩]
      else []

/-- The `\s*\(\s*"([^"]*)"\s*\)` tail of the annotation-format regex. -/
def dbTableAnnotationTail (r : List Char) : Bool :=
  match r.dropWhile isSpace with
  | '(' :: r2 =>
    match r2.dropWhile isSpace with
    | c :: r3 =>
      if c = dquote then
        match r3.span (fun d => ¬ d = dquote) with
        | (_, _ :: r4) =>
          (match r4.dropWhile isSpace with
            | ')' :: _ => true
            | _ => false)
        | (_, []) => false
      else false
    | [] => false
  | _ => false

/-- One attempt of `/@(database|table)\s*\(\s*"([^"]*)"\s*\)/` at the start
of `s`. -/
def dbTableAnnotationAt (s : List Char) : Bool :=
  match s with
  | '@' :: r =>
    (if r.take 8 = "database".data then dbTableAnnotationTail (r.drop 8)
     else if r.take 5 = "table".data then dbTableAnnotationTail (r.drop 5)
     else false)
  | _ => false

/-- `.test` of the annotation-format regex: a match at some position. -/
def testDbTableAnnotation : List Char → Bool
  | [] => false
  | c :: rest => dbTableAnnotationAt (c :: rest) || testDbTableAnnotation rest

/-- One attempt of `/@meta\s*\(\s*\{/` at the start of `s`. -/
def metaAnnotationAt (s : List Char) : Bool :=
  if s.take 5 = "@meta".data then
    match (s.drop 5).dropWhile isSpace with
    | '(' :: r2 =>
      match r2.dropWhile isSpace with
      | c :: _ => c = lbrace
      | [] => false
    | _ => false
  else false

/-- `.test` of the `@meta` format regex. -/
def testMetaAnnotation : List Char → Bool
  | [] => false
  | c :: rest => metaAnnotationAt (c :: rest) || testMetaAnnotation rest

/-- `validateGeneralSyntax` for one line. -/
def validateGeneralSyntaxL (fileName : String) (line : List Char) (n : Nat) :
    List VError :=
  (if (line.count dquote + line.count squote) % 2 ≠ 0 then
    [⟨fileName, .mismatchedQuotes, n⟩] else [])
  ++ (if includesL line "@database".data ∨ includesL line "@table".data then
        (if testDbTableAnnotation line then []
         else [⟨fileName, .badAnnotationFormat, n⟩])
      else [])
  ++ (if includesL line "@meta".data then
        (if testMetaAnnotation line then [] else [⟨fileName, .badMetaFormat, n⟩])
      else [])

/-- `validateOverallStructure` from CubeValidator.ts. -/
def validateOverallStructureL (fileName filePath : String)
    (lines : List (List Char)) : List VError :=
  (if lines.any (fun l => includesL l "@database".data) then []
   else [⟨fileName, .missingDatabase, 1⟩])
  ++ (if includesL filePath.data ".table.cube".data then
        (if lines.any (fun l => includesL l "@columns".data) then []
         else [⟨fileName, .missingColumns, 1⟩])
      else [])

/-- The six per-line checks of the `validateCubeFile` loop, with the skip of
empty and `//`-comment lines. -/
def perLineErrors (fileName : String) (lines : List (List Char)) (idx : Nat)
    (line : List Char) : List VError :=
  if trimL line = [] ∨ isPrefixL "//".data (trimL line) then []
  else
    validateAnnotationsL fileName line (idx + 1)
    ++ validateDataTypesL fileName lines line (idx + 1)
    ++ validateColumnOptionsL fileName lines line (idx + 1)
    ++ validateColumnPropertiesL fileName lines line (idx + 1)
    ++ validateRequiredL fileName lines (idx + 1)
    ++ validateGeneralSyntaxL fileName line (idx + 1)

/-- `ValidationResult` from CubeValidator.ts. -/
structure ValidationResult where
  isValid : Bool
  errors : List VError
  deriving DecidableEq, Repr

/-- `CubeValidator.validateCubeFile`.  The file-system read is passed in as
`readResult` (`Except.error` carries the exception message of a failed
read); `fileName` is `path.basename(filePath, path.extname(filePath))` as
computed by the (external) node path library. -/
def validateCubeFile (filePath fileName : String)
    (readResult : Except String String) : ValidationResult :=
  match readResult with
  | .error msg =>
    { isValid := ([(⟨fileName, .readFailure msg, 1⟩ : VError)]).isEmpty
      errors := [⟨fileName, .readFailure msg, 1⟩] }
  | .ok content =>
    { isValid := (((splitLines content.data).enum.flatMap
        (fun p => perLineErrors fileName (splitLines content.data) p.1 p.2))
        ++ validateOverallStructureL fileName filePath
          (splitLines content.data)).isEmpty
      errors := ((splitLines content.data).enum.flatMap
        (fun p => perLineErrors fileName (splitLines content.data) p.1 p.2))
        ++ validateOverallStructureL fileName filePath (splitLines content.data) }

/-- Spec-side construction for C5/C8: the comma-separated, double-quoted
rendering of an options-entry list. -/
def joinQuoted : List String → List Char
  | [] => []
  | [e] => dquote :: e.data ++ [dquote]
  | e :: rest => (dquote :: e.data ++ [dquote]) ++ ',' :: ' ' :: joinQuoted rest

/-- Spec-side construction for C5: an options line of the form
`options: ["e1", "e2", ...];`. -/
def buildOptionsLine (entries : List String) : List Char :=
  "options: [".data ++ joinQuoted entries ++ "];".data

/-- Spec-side construction for C8: quoted entries followed by a trailing
unquoted bare word. -/
def joinQuotedBare (qs : List String) (w : String) : List Char :=
  match qs with
  | [] => w.data
  | _ :: _ => joinQuoted qs ++ ',' :: ' ' :: w.data

/-- Spec-side construction for C8: an options line whose last entry is an
unquoted bare word. -/
def buildOptionsLineBare (qs : List String) (w : String) : List Char :=
  "options: [".data ++ joinQuotedBare qs w ++ "];".data

/-- The errors C7 speaks about: kind `varcharNoLength` (whose rendered
message is the only one mentioning "length specification") at line `n`. -/
def isVarcharErrAt (n : Nat) (e : VError) : Bool :=
  decide (e.kind = VKind.varcharNoLength) && decide (e.lineNumber = n)

end CubeValidator

namespace Schema

open SchemaBuilder

/-- A `ProcessError` as pushed by the `refreshTables`/`freshTables` loops
(Schema.ts); the catch-block error carries no `lineNumber`. -/
structure SProcessError where
  itemName : String
  errMsg : String
  filePath : String
  lineNumber : Option Nat
  deriving DecidableEq, Repr

/-- Outcome of the engine phase for one file: every `engine.run` handshake
returns status 200 (`success`); some handshake returns a non-200 status, on
which the loop calls `returnFormattedError` and `break`s (`engineFail`); or
an exception is thrown and lands in the catch block (`thrown`). -/
inductive EngineOutcome
  | success
  | engineFail (status : Nat) (msg : String)
  | thrown (msg : String)
  deriving DecidableEq, Repr

/-- One entry of `orderedCubeFiles` together with everything the
environment determines about it: `file` is the resolved `filePath`,
`isFile` is `stats.isFile()`, `tableName` the resolved table name,
`content` the file text read by the dependency helpers, `validation` the
outcome of `validateDatabaseConfiguration` (`none` = valid; its internals
hinge on the external config loader), and `engine` the engine phase's
outcome were it reached. -/
structure CubeFile where
  file : String
  isFile : Bool
  tableName : String
  content : String
  validation : Option SProcessError
  engine : EngineOutcome
  deriving DecidableEq, Repr

/-- The mutable state of a `refreshTables`/`freshTables` pass. -/
structure PassState where
  totalProcessed : Nat
  successCount : Nat
  errorCount : Nat
  processedTables : List String
  errors : List SProcessError
  failedTables : List String
  deriving DecidableEq, Repr

/-- The initial pass state. -/
def initState : PassState := ⟨0, 0, 0, [], [], []⟩

/-- JS `Set.has` on the insertion-ordered list model of a `Set<string>`. -/
def setHas (s : List String) (x : String) : Bool := decide (x ∈ s)

/-- JS `Set.add` on the insertion-ordered list model of a `Set<string>`. -/
def setAdd (s : List String) (x : String) : List String :=
  if x ∈ s then s else s ++ [x]

/-- `Schema.extractForeignKeyDependencies` is textually identical to
`DependencyResolver.extractForeignKeyReferences`; both are embedded by the
same scanner (file content passed in place of the `fs` read). -/
def extractForeignKeyDependencies (content : List Char) : List String :=
  DependencyResolver.extractForeignKeyReferences content

/-- `Schema.findForeignKeyLineNumber`, with the file content passed in
place of the `fs` read: first line containing `table: "name"` or
`table: 'name'`, 1-based; 1 if none. -/
def findForeignKeyLineNumber (content : List Char) (tableName : String) :
    Nat :=
  match (splitLines content).findIdx? (fun l =>
      includesL l ("table: \"".data ++ tableName.data ++ [dquote]) ||
      includesL l (("table: ".data ++ [squote]) ++ tableName.data ++ [squote]))
    with
  | some i => i + 1
  | none => 1

/-- The body of the `for` loop of `refreshTables`/`freshTables` for one
file (`verb` is `"refresh"` resp. `"create"`, as used in the dependency
error message).  Returns the updated state and whether the loop `break`s
(the non-200 `returnFormattedError` path). -/
def processFile (verb : String) (f : CubeFile) (st : PassState) :
    PassState × Bool :=
  if f.isFile then
    match f.validation with
    | some verr =>
      ({ st with errors := st.errors ++ [verr],
                 failedTables := setAdd st.failedTables f.tableName,
                 errorCount := st.errorCount + 1 }, false)
    | none =>
      let dependencies := extractForeignKeyDependencies f.content.data
      match dependencies.filter (fun dep => setHas st.failedTables dep) with
      | dep0 :: missingRest =>
        ({ st with
            errors := st.errors ++
              [⟨f.tableName,
                "Cannot " ++ verb ++ " table " ++ String.mk [squote]
                  ++ f.tableName ++ String.mk [squote]
                  ++ " because it depends on failed table(s): "
                  ++ String.intercalate ", " (dep0 :: missingRest),
                f.file,
                some (findForeignKeyLineNumber f.content.data dep0)⟩],
            failedTables := setAdd st.failedTables f.tableName,
            errorCount := st.errorCount + 1 }, false)
      | [] =>
        match f.engine with
        | .success =>
          ({ st with
              totalProcessed := st.totalProcessed + 1,
              successCount := st.successCount + 1,
              processedTables := st.processedTables ++ [f.tableName] }, false)
        | .engineFail _ _ => (st, true)
        | .thrown msg =>
          ({ st with
              errors := st.errors ++ [⟨f.tableName, msg, f.file, none⟩],
              failedTables := setAdd st.failedTables f.tableName,
              errorCount := st.errorCount + 1 }, false)
  else (st, false)

/-- The `for` loop of `refreshTables`/`freshTables` over the ordered cube
files. -/
def runPass (verb : String) : List CubeFile → PassState → PassState
  | [], st => st
  | f :: rest, st =>
    let r := processFile verb f st
    if r.2 then r.1 else runPass verb rest r.1

/-- Witness file content: a same-line foreign block referencing `users`. -/
def wContent : String := "  foreign: \x7b table: \"users\" \x7d"

/-- Witness file: a valid `orders` cube depending on `users`. -/
def wFile : CubeFile :=
  ⟨"orders.table.cube", true, "orders", wContent, none, EngineOutcome.success⟩

/-- Witness state: `users` already failed in this pass. -/
def wSt : PassState := ⟨0, 0, 0, [], [], ["users"]⟩

end Schema

namespace DependencyResolver

open SchemaBuilder

theorem insertionKeys_mem {l : List String} {x : String} :
    x ∈ SchemaBuilder.insertionKeys l ↔ x ∈ l := by
  induction l with
  | nil => simp [SchemaBuilder.insertionKeys]
  | cons n rest ih =>
    simp only [SchemaBuilder.insertionKeys, List.mem_cons, List.mem_filter]
    constructor
    · rintro (rfl | ⟨hx, _⟩)
      · exact Or.inl rfl
      · exact Or.inr (ih.mp hx)
    · rintro (rfl | hx)
      · exact Or.inl rfl
      · by_cases hxe : x = n
        · exact Or.inl hxe
        · exact Or.inr ⟨ih.mpr hx, by simpa using hxe⟩

theorem insertionKeys_nodup (l : List String) :
    (SchemaBuilder.insertionKeys l).Nodup := by
  induction l with
  | nil => simp [SchemaBuilder.insertionKeys]
  | cons n rest ih =>
    simp only [SchemaBuilder.insertionKeys]
    refine List.Nodup.cons ?_ (ih.filter _)
    intro hmem
    rcases List.mem_filter.mp hmem with ⟨_, hne⟩
    simp at hne

theorem insertionKeys_eq_of_nodup {l : List String} (h : l.Nodup) :
    SchemaBuilder.insertionKeys l = l := by
  induction l with
  | nil => rfl
  | cons n rest ih =>
    rcases List.nodup_cons.mp h with ⟨hn, hrest⟩
    simp only [SchemaBuilder.insertionKeys, ih hrest, List.cons.injEq, true_and]
    apply List.filter_eq_self.mpr
    intro a ha
    simp only [decide_eq_true_eq]
    intro he
    exact hn (he ▸ ha)

theorem initDeg_nonneg (deps : List TableDependency) (n : String) :
    0 ≤ initDeg deps n := by
  apply List.sum_nonneg
  intro x hx
  rcases List.mem_map.mp hx with ⟨d, _, rfl⟩
  exact Int.natCast_nonneg _

theorem stepNeighbors_inv (names : List String) (ms : List String) :
    ∀ (deg : String → Int) (queue result : List String),
      KahnInv names result queue deg →
      KahnInv names result (stepNeighbors names ms deg queue).2
        (stepNeighbors names ms deg queue).1 := by
  induction ms with
  | nil => intro deg queue result h; simpa [stepNeighbors] using h
  | cons m rest ih =>
    intro deg queue result h
    obtain ⟨hnd, hsub, hiff⟩ := h
    by_cases hm : m ∈ names
    · by_cases hd : deg m - 1 = 0
      · have hnotin : m ∉ result ++ queue := by
          intro hin
          have := (hiff m hm).mp hin
          omega
        simp only [stepNeighbors, if_pos hm, if_pos hd]
        apply ih
        refine ⟨?_, ?_, ?_⟩
        · have heq : result ++ (queue ++ [m]) = (result ++ queue) ++ [m] := by
            simp [List.append_assoc]
          rw [heq]
          apply List.Nodup.append hnd (List.nodup_singleton m)
          intro a ha hb
          rcases List.mem_singleton.mp hb with rfl
          exact hnotin ha
        · intro n hn
          rcases List.mem_append.mp hn with hn | hn
          · exact hsub n (List.mem_append.mpr (Or.inl hn))
          · rcases List.mem_append.mp hn with hn | hn
            · exact hsub n (List.mem_append.mpr (Or.inr hn))
            · rcases List.mem_singleton.mp hn with rfl
              exact hm
        · intro n hn
          by_cases hne : n = m
          · constructor
            · intro _
              show (if n = m then deg m - 1 else deg n) ≤ 0
              rw [if_pos hne]
              omega
            · intro _
              rw [hne]
              exact List.mem_append.mpr (Or.inr (List.mem_append.mpr
                (Or.inr (List.mem_singleton.mpr rfl))))
          · simp only [if_neg hne]
            constructor
            · intro hin
              apply (hiff n hn).mp
              rcases List.mem_append.mp hin with hin | hin
              · exact List.mem_append.mpr (Or.inl hin)
              · rcases List.mem_append.mp hin with hin | hin
                · exact List.mem_append.mpr (Or.inr hin)
                · exact absurd (List.mem_singleton.mp hin) hne
            · intro hle
              have hmem := (hiff n hn).mpr hle
              rcases List.mem_append.mp hmem with hin | hin
              · exact List.mem_append.mpr (Or.inl hin)
              · exact List.mem_append.mpr (Or.inr (List.mem_append.mpr (Or.inl hin)))
      · simp only [stepNeighbors, if_pos hm, if_neg hd]
        apply ih
        refine ⟨hnd, hsub, ?_⟩
        intro n hn
        by_cases hne : n = m
        · constructor
          · intro hin
            show (if n = m then deg m - 1 else deg n) ≤ 0
            rw [if_pos hne]
            have hdn := (hiff n hn).mp hin
            rw [hne] at hdn
            omega
          · intro hle
            apply (hiff n hn).mpr
            have hle' : (if n = m then deg m - 1 else deg n) ≤ 0 := hle
            rw [if_pos hne] at hle'
            rw [hne]
            omega
        · simpa [hne] using hiff n hn
    · simp only [stepNeighbors, if_neg hm]
      exact ih deg queue result ⟨hnd, hsub, hiff⟩

theorem kahnLoop_nodup_subset (deps : List TableDependency) (names : List String) :
    ∀ (fuel : Nat) (queue result : List String) (deg : String → Int),
      KahnInv names result queue deg →
      (kahnLoop deps names fuel queue result deg).Nodup ∧
      (∀ x ∈ kahnLoop deps names fuel queue result deg, x ∈ names) := by
  intro fuel
  induction fuel with
  | zero =>
    intro queue result deg h
    obtain ⟨hnd, hsub, _⟩ := h
    refine ⟨(List.sublist_append_left result queue).nodup hnd, ?_⟩
    intro x hx
    exact hsub x (List.mem_append.mpr (Or.inl hx))
  | succ fuel ih =>
    intro queue result deg h
    obtain ⟨hnd, hsub, hiff⟩ := h
    match queue with
    | [] =>
      refine ⟨by simpa using hnd, ?_⟩
      intro x hx
      exact hsub x (by simpa using hx)
    | q :: queue =>
      simp only [kahnLoop]
      apply ih
      apply stepNeighbors_inv
      have heq : result ++ q :: queue = (result ++ [q]) ++ queue := by
        simp [List.append_assoc]
      refine ⟨?_, ?_, ?_⟩
      · rw [← heq]; exact hnd
      · intro n hn; rw [← heq] at hn; exact hsub n hn
      · intro n hn; rw [← heq]; exact hiff n hn

theorem kahnInv_init (deps : List TableDependency) :
    KahnInv (knownNames deps) []
      ((knownNames deps).filter (fun n => initDeg deps n = 0)) (initDeg deps) := by
  refine ⟨?_, ?_, ?_⟩
  · simpa using (insertionKeys_nodup _).filter _
  · intro n hn
    simp only [List.nil_append] at hn
    exact (List.mem_filter.mp hn).1
  · intro n hn
    simp only [List.nil_append, List.mem_filter, hn, true_and]
    have := initDeg_nonneg deps n
    constructor
    · intro h; have := of_decide_eq_true h; omega
    · intro h; exact decide_eq_true (by omega)

theorem kahnResult_nodup_subset (deps : List TableDependency) :
    (kahnResult deps).Nodup ∧ ∀ x ∈ kahnResult deps, x ∈ knownNames deps :=
  kahnLoop_nodup_subset deps (knownNames deps) (deps.length + 1) _ [] _
    (kahnInv_init deps)

theorem filter_notmem_absorb (result : List String) (dn : String)
    (hd : dn ∈ result) :
    ∀ l : List String,
      (l.filter (fun m => ¬ m = dn)).filter (fun m => ¬ m ∈ result) =
        l.filter (fun m => ¬ m ∈ result) := by
  intro l
  rw [List.filter_filter]
  apply List.filter_congr
  intro x _
  by_cases hx : x = dn
  · subst hx
    simp [hd]
  · by_cases hxr : x ∈ result <;> simp [hx, hxr]

theorem filter_notmem_append_singleton (result : List String) (dn : String) :
    ∀ l : List String,
      l.filter (fun m => ¬ m ∈ result ++ [dn]) =
        (l.filter (fun m => ¬ m = dn)).filter (fun m => ¬ m ∈ result) := by
  intro l
  rw [List.filter_filter]
  apply List.filter_congr
  intro x _
  by_cases hx : x = dn
  · subst hx
    simp [List.mem_append]
  · by_cases hxr : x ∈ result <;> simp [List.mem_append, hx, hxr]

theorem completeResult_eq (ds : List TableDependency) :
    ∀ result : List String,
      completeResult ds result =
        result ++ (SchemaBuilder.insertionKeys (ds.map (fun d => d.tableName))).filter
          (fun m => ¬ m ∈ result) := by
  induction ds with
  | nil => intro result; simp [completeResult, SchemaBuilder.insertionKeys]
  | cons d rest ih =>
    intro result
    simp only [completeResult, List.map_cons, SchemaBuilder.insertionKeys]
    by_cases hd : d.tableName ∈ result
    · rw [if_pos hd, ih result]
      congr 1
      rw [← filter_notmem_absorb result d.tableName hd
        (SchemaBuilder.insertionKeys (rest.map (fun d => d.tableName)))]
      simp [List.filter_cons, hd]
    · rw [if_neg hd, ih (result ++ [d.tableName]), List.append_assoc]
      congr 1
      rw [filter_notmem_append_singleton result d.tableName
        (SchemaBuilder.insertionKeys (rest.map (fun d => d.tableName)))]
      simp [List.filter_cons, hd]

/-- C3: `topologicalSort` on any entry list with pairwise-distinct table
names (cyclic dependency graphs included) returns every table name exactly
once: the loop (being fuelled by the entry count, which the proved
`KahnInv` invariant shows is an upper bound on the number of iterations)
terminates, and the names that Kahn's algorithm did not process are
appended after the sorted prefix in their original encounter order. -/
theorem C3_topologicalSort_exactly_once (deps : List TableDependency)
    (h : (deps.map (fun d => d.tableName)).Nodup) (n : String) :
    topologicalSort deps =
      kahnResult deps ++ (deps.map (fun d => d.tableName)).filter
        (fun m => ¬ m ∈ kahnResult deps) ∧
    (topologicalSort deps).count n =
      if n ∈ deps.map (fun d => d.tableName) then 1 else 0 := by
  have hknown : knownNames deps = deps.map (fun d => d.tableName) := by
    simp only [knownNames]
    exact insertionKeys_eq_of_nodup h
  obtain ⟨hkd, hks⟩ := kahnResult_nodup_subset deps
  rw [hknown] at hks
  have hstruct : topologicalSort deps =
      kahnResult deps ++ (deps.map (fun d => d.tableName)).filter
        (fun m => ¬ m ∈ kahnResult deps) := by
    simp only [topologicalSort]
    by_cases hlen : (kahnResult deps).length = deps.length
    · rw [if_pos hlen]
      have hsp : List.Subperm (kahnResult deps) (deps.map (fun d => d.tableName)) :=
        hkd.subperm hks
      have hperm : List.Perm (kahnResult deps) (deps.map (fun d => d.tableName)) := by
        apply hsp.perm_of_length_le
        simp [hlen]
      have : (deps.map (fun d => d.tableName)).filter
          (fun m => ¬ m ∈ kahnResult deps) = [] := by
        apply List.filter_eq_nil_iff.mpr
        intro a ha
        simp [(List.Perm.mem_iff hperm).mpr ha]
      rw [this, List.append_nil]
    · rw [if_neg hlen, completeResult_eq, insertionKeys_eq_of_nodup h]
  refine ⟨hstruct, ?_⟩
  rw [hstruct, List.count_append]
  by_cases hn : n ∈ deps.map (fun d => d.tableName)
  · rw [if_pos hn]
    by_cases hk : n ∈ kahnResult deps
    · have h1 : (kahnResult deps).count n = 1 :=
        List.count_eq_one_of_mem hkd hk
      have h2 : ((deps.map (fun d => d.tableName)).filter
          (fun m => ¬ m ∈ kahnResult deps)).count n = 0 := by
        apply List.count_eq_zero.mpr
        intro hmem
        have hf := (List.mem_filter.mp hmem).2
        simp at hf
        exact hf hk
      omega
    · have h1 : (kahnResult deps).count n = 0 := List.count_eq_zero.mpr hk
      have hmemf : n ∈ (deps.map (fun d => d.tableName)).filter
          (fun m => ¬ m ∈ kahnResult deps) := by
        apply List.mem_filter.mpr
        exact ⟨hn, by simpa using hk⟩
      have h2 : ((deps.map (fun d => d.tableName)).filter
          (fun m => ¬ m ∈ kahnResult deps)).count n = 1 :=
        List.count_eq_one_of_mem (h.filter _) hmemf
      omega
  · rw [if_neg hn]
    have h1 : (kahnResult deps).count n = 0 := by
      apply List.count_eq_zero.mpr
      intro hk
      exact hn (hks n hk)
    have h2 : ((deps.map (fun d => d.tableName)).filter
        (fun m => ¬ m ∈ kahnResult deps)).count n = 0 := by
      apply List.count_eq_zero.mpr
      intro hmem
      exact hn (List.mem_filter.mp hmem).1
    omega

/-- Witness for C3 at the 2-cycle `A ↔ B`: both names are returned exactly
once each. -/
theorem C3_topologicalSort_exactly_once_witness :
    (topologicalSort [⟨"A", "a", ["B"]⟩, ⟨"B", "b", ["A"]⟩] =
      kahnResult [⟨"A", "a", ["B"]⟩, ⟨"B", "b", ["A"]⟩] ++
        (([⟨"A", "a", ["B"]⟩, ⟨"B", "b", ["A"]⟩] :
            List TableDependency).map (fun d => d.tableName)).filter
          (fun m => ¬ m ∈ kahnResult [⟨"A", "a", ["B"]⟩, ⟨"B", "b", ["A"]⟩]) ∧
      (topologicalSort [⟨"A", "a", ["B"]⟩, ⟨"B", "b", ["A"]⟩]).count "A" =
        if "A" ∈ ([⟨"A", "a", ["B"]⟩, ⟨"B", "b", ["A"]⟩] :
            List TableDependency).map (fun d => d.tableName) then 1 else 0) ∧
    (topologicalSort [⟨"A", "a", ["B"]⟩, ⟨"B", "b", ["A"]⟩]).count "B" =
      if "B" ∈ ([⟨"A", "a", ["B"]⟩, ⟨"B", "b", ["A"]⟩] :
          List TableDependency).map (fun d => d.tableName) then 1 else 0 :=
  ⟨C3_topologicalSort_exactly_once [⟨"A", "a", ["B"]⟩, ⟨"B", "b", ["A"]⟩]
      (by decide) "A",
    (C3_topologicalSort_exactly_once [⟨"A", "a", ["B"]⟩, ⟨"B", "b", ["A"]⟩]
      (by decide) "B").2⟩

/-- C1: evaluating `resolveDependencies` on the input order `[C, B, A]`
where `C` references `B` and `B` references `A`.  The extractor does find
the foreign-key references, but the resulting table sequence is
`["A", "C", "B"]`: `B` does **not** precede `C`, contradicting the claimed
dependency order.  The cause is in `topologicalSort`: after dequeuing a
node it decrements the in-degrees of the node's *dependencies*
(`graph.get(current)`) instead of its *dependents*, so the chain is never
unlocked and the order of the tail comes from the circular-dependency
fallback, which preserves the input order `C, B`. -/
theorem C1_resolveDependencies_chain_misordered :
    extractForeignKeyReferences cubeFileC.data = ["B"] ∧
    extractForeignKeyReferences cubeFileB.data = ["A"] ∧
    extractForeignKeyReferences cubeFileA.data = [] ∧
    (resolveDependencies
      [("C", "C.table.cube", cubeFileC), ("B", "B.table.cube", cubeFileB),
       ("A", "A.table.cube", cubeFileA)] CubeType.table "ts").tables
      = ["A", "C", "B"] ∧
    precedesIn
      (resolveDependencies
        [("C", "C.table.cube", cubeFileC), ("B", "B.table.cube", cubeFileB),
         ("A", "A.table.cube", cubeFileA)] CubeType.table "ts").tables
      "B" "C" = false := by
  refine ⟨by decide, by decide, by decide, by decide, by decide⟩

theorem any_key_iff (m : List (String × String)) (k : String) :
    (m.any (fun p => p.1 = k)) = true ↔ k ∈ m.map Prod.fst := by
  simp only [List.any_eq_true, List.mem_map, decide_eq_true_eq]

theorem mapSet_keys_of_mem (m : List (String × String)) (k v : String)
    (h : k ∈ m.map Prod.fst) :
    (mapSet m k v).map Prod.fst = m.map Prod.fst := by
  simp only [mapSet, if_pos ((any_key_iff m k).mpr h)]
  rw [List.map_map]
  apply List.map_congr_left
  intro p _
  by_cases hp : p.1 = k
  · simp [hp]
  · simp [hp]

theorem mapSet_of_not_mem (m : List (String × String)) (k v : String)
    (h : ¬ k ∈ m.map Prod.fst) :
    mapSet m k v = m ++ [(k, v)] := by
  simp only [mapSet]
  rw [if_neg]
  intro hc
  exact h ((any_key_iff m k).mp hc)

theorem mapSet_inv (nameOf : String → String) (m : List (String × String))
    (v : String) (h : MapInv nameOf m) :
    MapInv nameOf (mapSet m (nameOf v) v) := by
  obtain ⟨hnd, hval⟩ := h
  by_cases hk : nameOf v ∈ m.map Prod.fst
  · constructor
    · rw [mapSet_keys_of_mem m _ v hk]; exact hnd
    · intro p hp
      simp only [mapSet, if_pos ((any_key_iff m (nameOf v)).mpr hk)] at hp
      rcases List.mem_map.mp hp with ⟨q, hq, he⟩
      by_cases hq1 : q.1 = nameOf v
      · rw [if_pos hq1] at he
        rw [← he]
      · rw [if_neg hq1] at he
        rw [← he]; exact hval q hq
  · rw [mapSet_of_not_mem m _ v hk]
    constructor
    · rw [List.map_append]
      apply List.Nodup.append hnd (by simp)
      intro a ha hb
      simp only [List.map_cons, List.map_nil, List.mem_singleton] at hb
      exact hk (hb ▸ ha)
    · intro p hp
      rcases List.mem_append.mp hp with hp | hp
      · exact hval p hp
      · rcases List.mem_singleton.mp hp with rfl
        rfl

theorem foldl_mapSet_inv (nameOf : String → String) :
    ∀ (files : List String) (m : List (String × String)), MapInv nameOf m →
      MapInv nameOf (files.foldl (fun m f => mapSet m (nameOf f) f) m) := by
  intro files
  induction files with
  | nil => intro m h; exact h
  | cons f files ih =>
    intro m h
    exact ih _ (mapSet_inv nameOf m f h)

theorem buildFileMap_inv (nameOf : String → String) (files : List String) :
    MapInv nameOf (buildFileMap nameOf files) :=
  foldl_mapSet_inv nameOf files [] ⟨List.nodup_nil, by intro p hp; cases hp⟩

theorem foldl_mapSet_keys (nameOf : String → String) :
    ∀ (files : List String) (m : List (String × String)),
      ((files.foldl (fun m f => mapSet m (nameOf f) f) m).map Prod.fst) =
        m.map Prod.fst ++
          (SchemaBuilder.insertionKeys (files.map nameOf)).filter
            (fun k => ¬ k ∈ m.map Prod.fst) := by
  intro files
  induction files with
  | nil =>
    intro m
    simp [SchemaBuilder.insertionKeys]
  | cons f files ih =>
    intro m
    simp only [List.foldl_cons, List.map_cons, SchemaBuilder.insertionKeys]
    by_cases hk : nameOf f ∈ m.map Prod.fst
    · rw [ih (mapSet m (nameOf f) f), mapSet_keys_of_mem m _ f hk]
      congr 1
      rw [← filter_notmem_absorb (m.map Prod.fst) (nameOf f) hk
        (SchemaBuilder.insertionKeys (files.map nameOf))]
      simp [List.filter_cons, hk]
    · rw [ih (mapSet m (nameOf f) f), mapSet_of_not_mem m _ f hk,
        List.map_append]
      simp only [List.map_cons, List.map_nil]
      rw [List.append_assoc]
      congr 1
      rw [filter_notmem_append_singleton (m.map Prod.fst) (nameOf f)
        (SchemaBuilder.insertionKeys (files.map nameOf))]
      simp [List.filter_cons, hk]

theorem buildFileMap_keys (nameOf : String → String) (files : List String) :
    (buildFileMap nameOf files).map Prod.fst =
      SchemaBuilder.insertionKeys (files.map nameOf) := by
  have h := foldl_mapSet_keys nameOf files []
  simpa [buildFileMap, List.filter_eq_self] using h

theorem foldl_mapSet_of_nodup (nameOf : String → String) :
    ∀ (files : List String) (m : List (String × String)),
      (files.map nameOf).Nodup →
      (∀ f ∈ files, ¬ nameOf f ∈ m.map Prod.fst) →
      files.foldl (fun m f => mapSet m (nameOf f) f) m =
        m ++ files.map (fun f => (nameOf f, f)) := by
  intro files
  induction files with
  | nil => intro m _ _; simp
  | cons f files ih =>
    intro m hnd hdisj
    have hnd2 : ¬ nameOf f ∈ files.map nameOf ∧ (files.map nameOf).Nodup := by
      simpa only [List.map_cons, List.nodup_cons] using hnd
    have hdisj2 : ∀ g ∈ files, ¬ nameOf g ∈ (m ++ [(nameOf f, f)]).map Prod.fst := by
      intro g hg hc
      rw [List.map_append] at hc
      rcases List.mem_append.mp hc with hc | hc
      · exact hdisj g (List.mem_cons_of_mem f hg) hc
      · simp only [List.map_cons, List.map_nil, List.mem_singleton] at hc
        exact hnd2.1 (hc ▸ List.mem_map_of_mem nameOf hg)
    simp only [List.foldl_cons]
    rw [mapSet_of_not_mem m _ f (hdisj f (List.mem_cons_self f files))]
    rw [ih (m ++ [(nameOf f, f)]) hnd2.2 hdisj2]
    simp

theorem buildFileMap_of_nodup (nameOf : String → String) (files : List String)
    (hnd : (files.map nameOf).Nodup) :
    buildFileMap nameOf files = files.map (fun f => (nameOf f, f)) := by
  have h := foldl_mapSet_of_nodup nameOf files [] hnd (by intro f _ hc; simp at hc)
  simpa [buildFileMap] using h

theorem map_snd_perm_of_find (n : String) :
    ∀ (m : List (String × String)) (p : String × String),
      (m.map Prod.fst).Nodup → m.find? (fun q => q.1 = n) = some p →
      List.Perm (m.map Prod.snd)
        (p.2 :: (m.filter (fun q => ¬ q.1 = n)).map Prod.snd) := by
  intro m
  induction m with
  | nil => intro p _ hfind; cases hfind
  | cons q m ihm =>
    intro p hnd hfind
    have hnd2 : ¬ q.1 ∈ m.map Prod.fst ∧ (m.map Prod.fst).Nodup := by
      simpa only [List.map_cons, List.nodup_cons] using hnd
    by_cases hq1 : q.1 = n
    · have hq_eq : q = p := by
        rw [List.find?_cons, decide_eq_true hq1] at hfind
        exact Option.some.inj hfind
      have hrest : m.filter (fun r => ¬ r.1 = n) = m := by
        apply List.filter_eq_self.mpr
        intro r hr
        simp only [decide_eq_true_eq]
        intro hc
        apply hnd2.1
        have hqr : q.1 = r.1 := by rw [hq1, hc]
        rw [hqr]
        exact List.mem_map_of_mem Prod.fst hr
      rw [List.filter_cons, if_neg (by simp [hq1]), hrest, ← hq_eq]
      simp only [List.map_cons]
      exact List.Perm.refl _
    · have hfind' : m.find? (fun r => r.1 = n) = some p := by
        rw [List.find?_cons, decide_eq_false hq1] at hfind
        exact hfind
      have hperm := ihm p hnd2.2 hfind'
      rw [List.filter_cons, if_pos (by simp [hq1])]
      simp only [List.map_cons]
      exact (hperm.cons q.2).trans (List.Perm.swap p.2 q.2 _)

theorem takeOrdered_facts (nameOf : String → String) :
    ∀ (ns : List String) (m : List (String × String)), MapInv nameOf m →
      (((takeOrdered ns m).1.map nameOf ++
          (takeOrdered ns m).2.map Prod.fst).Nodup ∧
        (∀ x ∈ (takeOrdered ns m).1.map nameOf ++
          (takeOrdered ns m).2.map Prod.fst, x ∈ m.map Prod.fst)) ∧
      (∀ p ∈ (takeOrdered ns m).2, p ∈ m) ∧
      List.Perm ((takeOrdered ns m).1 ++ (takeOrdered ns m).2.map Prod.snd)
        (m.map Prod.snd) := by
  intro ns
  induction ns with
  | nil =>
    intro m h
    refine ⟨⟨?_, ?_⟩, ?_, ?_⟩
    · simpa [takeOrdered] using h.1
    · intro x hx
      simpa [takeOrdered] using hx
    · intro p hp
      simpa [takeOrdered] using hp
    · simp [takeOrdered]
  | cons n rest ih =>
    intro m h
    by_cases hk : n ∈ m.map Prod.fst
    · have hany : (m.any (fun p => p.1 = n)) = true := (any_key_iff m n).mpr hk
      rcases hfind : m.find? (fun p => p.1 = n) with _ | p
      · exfalso
        rcases List.mem_map.mp hk with ⟨p, hp, he⟩
        have := List.find?_eq_none.mp hfind p hp
        simp [he] at this
      · have hp_mem : p ∈ m := List.mem_of_find?_eq_some hfind
        have hp_key : p.1 = n := by
          have := List.find?_some hfind
          simpa using this
        have hminv : MapInv nameOf (m.filter (fun q => ¬ q.1 = n)) := by
          constructor
          · exact ((List.filter_sublist m).map Prod.fst).nodup h.1
          · intro q hq
            exact h.2 q (List.mem_of_mem_filter hq)
        have hkeys_sub : ∀ x ∈ (m.filter (fun q => ¬ q.1 = n)).map Prod.fst,
            x ∈ m.map Prod.fst := fun x hx =>
          ((List.filter_sublist m).map Prod.fst).mem hx
        have hkeys_ne : ∀ x ∈ (m.filter (fun q => ¬ q.1 = n)).map Prod.fst,
            ¬ x = n := by
          intro x hx
          rcases List.mem_map.mp hx with ⟨q, hq, he⟩
          have := List.of_mem_filter hq
          simp only [decide_eq_true_eq] at this
          exact he ▸ this
        obtain ⟨⟨ihnd, ihsub⟩, ihmem, ihperm⟩ := ih (m.filter (fun q => ¬ q.1 = n)) hminv
        have hstep : takeOrdered (n :: rest) m =
            (p.2 :: (takeOrdered rest (m.filter (fun q => ¬ q.1 = n))).1,
              (takeOrdered rest (m.filter (fun q => ¬ q.1 = n))).2) := by
          simp only [takeOrdered, hany, if_pos, hfind]
        rw [hstep]
        have hval : nameOf p.2 = n := by
          rw [← h.2 p hp_mem, hp_key]
        refine ⟨⟨?_, ?_⟩, ?_, ?_⟩
        · simp only [List.map_cons, List.cons_append]
          apply List.Nodup.cons
          · rw [hval]
            intro hc
            exact hkeys_ne n (ihsub n hc) rfl
          · exact ihnd
        · intro x hx
          simp only [List.map_cons, List.cons_append, List.mem_cons] at hx
          rcases hx with rfl | hx
          · rw [hval]; exact hk
          · exact hkeys_sub x (ihsub x hx)
        · intro q hq
          exact List.mem_of_mem_filter (ihmem q hq)
        · simp only [List.cons_append]
          have h2 := map_snd_perm_of_find n m p h.1 hfind
          exact (ihperm.cons p.2).trans h2.symm
    · have hany : (m.any (fun p => p.1 = n)) = false := by
        rw [← Bool.not_eq_true]
        intro hc
        exact hk ((any_key_iff m n).mp hc)
      have hstep : takeOrdered (n :: rest) m = takeOrdered rest m := by
        simp only [takeOrdered, hany]
        rfl
      rw [hstep]
      exact ih m h

theorem takeOrdered_fixed (nameOf : String → String) :
    ∀ (ns : List String) (m : List (String × String)), MapInv nameOf m →
      takeOrdered ns ((takeOrdered ns m).1.map (fun v => (nameOf v, v)) ++
        (takeOrdered ns m).2) = takeOrdered ns m := by
  intro ns
  induction ns with
  | nil =>
    intro m h
    simp [takeOrdered]
  | cons n rest ih =>
    intro m h
    by_cases hk : n ∈ m.map Prod.fst
    · have hany : (m.any (fun p => p.1 = n)) = true := (any_key_iff m n).mpr hk
      rcases hfind : m.find? (fun p => p.1 = n) with _ | p
      · exfalso
        rcases List.mem_map.mp hk with ⟨p, hp, he⟩
        have := List.find?_eq_none.mp hfind p hp
        simp [he] at this
      · have hp_mem : p ∈ m := List.mem_of_find?_eq_some hfind
        have hp_key : p.1 = n := by
          have := List.find?_some hfind
          simpa using this
        have hval : nameOf p.2 = n := by
          rw [← h.2 p hp_mem, hp_key]
        have hminv : MapInv nameOf (m.filter (fun q => ¬ q.1 = n)) := by
          constructor
          · exact ((List.filter_sublist m).map Prod.fst).nodup h.1
          · intro q hq
            exact h.2 q (List.mem_of_mem_filter hq)
        have hkeys_ne : ∀ x ∈ (m.filter (fun q => ¬ q.1 = n)).map Prod.fst,
            ¬ x = n := by
          intro x hx
          rcases List.mem_map.mp hx with ⟨q, hq, he⟩
          have := List.of_mem_filter hq
          simp only [decide_eq_true_eq] at this
          exact he ▸ this
        obtain ⟨⟨_, ihsub⟩, _, _⟩ :=
          takeOrdered_facts nameOf rest (m.filter (fun q => ¬ q.1 = n)) hminv
        have hstep : takeOrdered (n :: rest) m =
            (p.2 :: (takeOrdered rest (m.filter (fun q => ¬ q.1 = n))).1,
              (takeOrdered rest (m.filter (fun q => ¬ q.1 = n))).2) := by
          simp only [takeOrdered, hany, if_pos, hfind]
        rw [hstep]
        simp only [List.map_cons, List.cons_append, hval]
        have hT : ∀ x ∈ ((takeOrdered rest (m.filter (fun q => ¬ q.1 = n))).1.map
            (fun v => (nameOf v, v)) ++
            (takeOrdered rest (m.filter (fun q => ¬ q.1 = n))).2).map Prod.fst,
            ¬ x = n := by
          intro x hx
          rw [List.map_append, List.map_map] at hx
          apply hkeys_ne
          apply ihsub
          rcases List.mem_append.mp hx with hx | hx
          · apply List.mem_append.mpr (Or.inl ?_)
            rcases List.mem_map.mp hx with ⟨v, hv, he⟩
            rw [← he]
            exact List.mem_map_of_mem nameOf hv
          · exact List.mem_append.mpr (Or.inr hx)
        have hany2 : (((n, p.2) ::
            ((takeOrdered rest (m.filter (fun q => ¬ q.1 = n))).1.map
              (fun v => (nameOf v, v)) ++
              (takeOrdered rest (m.filter (fun q => ¬ q.1 = n))).2)).any
            (fun p => p.1 = n)) = true := by
          simp
        have hfind2 : (((n, p.2) ::
            ((takeOrdered rest (m.filter (fun q => ¬ q.1 = n))).1.map
              (fun v => (nameOf v, v)) ++
              (takeOrdered rest (m.filter (fun q => ¬ q.1 = n))).2)).find?
            (fun p => p.1 = n)) = some (n, p.2) := by
          rw [List.find?_cons]
          simp
        have hfilter2 : (((n, p.2) ::
            ((takeOrdered rest (m.filter (fun q => ¬ q.1 = n))).1.map
              (fun v => (nameOf v, v)) ++
              (takeOrdered rest (m.filter (fun q => ¬ q.1 = n))).2)).filter
            (fun q => ¬ q.1 = n)) =
            ((takeOrdered rest (m.filter (fun q => ¬ q.1 = n))).1.map
              (fun v => (nameOf v, v)) ++
              (takeOrdered rest (m.filter (fun q => ¬ q.1 = n))).2) := by
          rw [List.filter_cons, if_neg (by simp)]
          apply List.filter_eq_self.mpr
          intro q hq
          simp only [decide_eq_true_eq]
          exact hT q.1 (List.mem_map_of_mem Prod.fst hq)
        simp only [takeOrdered, hany2, if_pos, hfind2, hfilter2]
        rw [ih (m.filter (fun q => ¬ q.1 = n)) hminv]
    · have hany : (m.any (fun p => p.1 = n)) = false := by
        rw [← Bool.not_eq_true]
        intro hc
        exact hk ((any_key_iff m n).mp hc)
      have hstep : takeOrdered (n :: rest) m = takeOrdered rest m := by
        simp only [takeOrdered, hany]
        rfl
      rw [hstep]
      obtain ⟨⟨_, hsub⟩, _, _⟩ := takeOrdered_facts nameOf rest m h
      have hany2 : (((takeOrdered rest m).1.map (fun v => (nameOf v, v)) ++
          (takeOrdered rest m).2).any (fun p => p.1 = n)) = false := by
        rw [← Bool.not_eq_true]
        intro hc
        apply hk
        rcases List.any_eq_true.mp hc with ⟨p, hp, he⟩
        simp only [decide_eq_true_eq] at he
        apply hsub
        rcases List.mem_append.mp hp with hp | hp
        · apply List.mem_append.mpr (Or.inl ?_)
          rcases List.mem_map.mp hp with ⟨v, hv, hpe⟩
          rw [← he, ← hpe]
          exact List.mem_map_of_mem nameOf hv
        · apply List.mem_append.mpr (Or.inr ?_)
          rw [← he]
          exact List.mem_map_of_mem Prod.fst hp
      have hstep2 : takeOrdered (n :: rest)
          ((takeOrdered rest m).1.map (fun v => (nameOf v, v)) ++
            (takeOrdered rest m).2) =
          takeOrdered rest
          ((takeOrdered rest m).1.map (fun v => (nameOf v, v)) ++
            (takeOrdered rest m).2) := by
        simp only [takeOrdered, hany2]
        rfl
      rw [hstep2, ih m h]

/-- C4: reordering with a fixed stored execution order and fixed table-name
resolution is idempotent: applying `orderCubeFiles` to its own output
returns the same sequence.  (When no order is stored both applications are
the identity; otherwise the second pass rebuilds a file map whose keys are
exactly the first pass's output names, selects the same stored names in the
same order, and appends the same remainder.) -/
theorem C4_orderCubeFiles_idempotent (nameOf : CubeType → String → String)
    (ct : CubeType) (stored : Option ExecutionOrder) (cubeFiles : List String) :
    orderCubeFiles nameOf ct stored (orderCubeFiles nameOf ct stored cubeFiles) =
      orderCubeFiles nameOf ct stored cubeFiles := by
  cases stored with
  | none => rfl
  | some eo =>
    simp only [orderCubeFiles]
    have hminv := buildFileMap_inv (nameOf ct) cubeFiles
    obtain ⟨⟨hnd, hsub⟩, hmem, hperm⟩ :=
      takeOrdered_facts (nameOf ct) eo.tables (buildFileMap (nameOf ct) cubeFiles)
        hminv
    have hRval : ∀ p ∈ (takeOrdered eo.tables (buildFileMap (nameOf ct) cubeFiles)).2,
        p.1 = nameOf ct p.2 := fun p hp => hminv.2 p (hmem p hp)
    have hRmap : ((takeOrdered eo.tables
        (buildFileMap (nameOf ct) cubeFiles)).2.map Prod.snd).map (nameOf ct) =
        (takeOrdered eo.tables (buildFileMap (nameOf ct) cubeFiles)).2.map
          Prod.fst := by
      rw [List.map_map]
      apply List.map_congr_left
      intro p hp
      exact (hRval p hp).symm
    have ho1nd : (((takeOrdered eo.tables
        (buildFileMap (nameOf ct) cubeFiles)).1 ++
        (takeOrdered eo.tables (buildFileMap (nameOf ct) cubeFiles)).2.map
          Prod.snd).map (nameOf ct)).Nodup := by
      rw [List.map_append, hRmap]
      exact hnd
    have hbuild : buildFileMap (nameOf ct)
        ((takeOrdered eo.tables (buildFileMap (nameOf ct) cubeFiles)).1 ++
          (takeOrdered eo.tables (buildFileMap (nameOf ct) cubeFiles)).2.map
            Prod.snd) =
        (takeOrdered eo.tables (buildFileMap (nameOf ct) cubeFiles)).1.map
          (fun v => (nameOf ct v, v)) ++
          (takeOrdered eo.tables (buildFileMap (nameOf ct) cubeFiles)).2 := by
      rw [buildFileMap_of_nodup (nameOf ct) _ ho1nd, List.map_append]
      congr 1
      rw [List.map_map]
      have : ∀ p ∈ (takeOrdered eo.tables
          (buildFileMap (nameOf ct) cubeFiles)).2,
          ((fun v => (nameOf ct v, v)) ∘ Prod.snd) p = p := by
        intro p hp
        have h1 := hRval p hp
        simp only [Function.comp_apply]
        rw [← h1]
      rw [List.map_congr_left this]
      simp
    rw [hbuild, takeOrdered_fixed (nameOf ct) eo.tables
      (buildFileMap (nameOf ct) cubeFiles) hminv]

theorem insertionKeys_length_le (l : List String) :
    (SchemaBuilder.insertionKeys l).length ≤ l.length := by
  induction l with
  | nil => simp [SchemaBuilder.insertionKeys]
  | cons n rest ih =>
    simp only [SchemaBuilder.insertionKeys, List.length_cons]
    have := List.length_filter_le (fun m => ¬ m = n)
      (SchemaBuilder.insertionKeys rest)
    omega

theorem insertionKeys_length_lt (l : List String) (h : ¬ l.Nodup) :
    (SchemaBuilder.insertionKeys l).length < l.length := by
  induction l with
  | nil => exact absurd List.nodup_nil h
  | cons n rest ih =>
    simp only [SchemaBuilder.insertionKeys, List.length_cons]
    by_cases hn : n ∈ rest
    · have hmem : n ∈ SchemaBuilder.insertionKeys rest := insertionKeys_mem.mpr hn
      have hlt : ((SchemaBuilder.insertionKeys rest).filter
          (fun m => ¬ m = n)).length < (SchemaBuilder.insertionKeys rest).length := by
        apply List.length_filter_lt_length_iff_exists.mpr
        exact ⟨n, hmem, by simp⟩
      have hle := insertionKeys_length_le rest
      omega
    · have hrest : ¬ rest.Nodup := by
        intro hc
        exact h (List.nodup_cons.mpr ⟨hn, hc⟩)
      have hlt := ih hrest
      have := List.length_filter_le (fun m => ¬ m = n)
        (SchemaBuilder.insertionKeys rest)
      omega

theorem mapSet_keys_nodup (m : List (String × String)) (k v : String)
    (h : (m.map Prod.fst).Nodup) : ((mapSet m k v).map Prod.fst).Nodup := by
  by_cases hk : k ∈ m.map Prod.fst
  · rw [mapSet_keys_of_mem m k v hk]; exact h
  · rw [mapSet_of_not_mem m k v hk, List.map_append]
    apply List.Nodup.append h (by simp)
    intro a ha hb
    simp only [List.map_cons, List.map_nil, List.mem_singleton] at hb
    exact hk (hb ▸ ha)

theorem find?_append_single (p : String × String → Bool) (a : String × String) :
    ∀ l : List (String × String),
      (l ++ [a]).find? p =
        match l.find? p with
        | some x => some x
        | none => if p a then some a else none := by
  intro l
  induction l with
  | nil => cases hpa : p a <;> simp [List.find?, hpa]
  | cons q l ih =>
    simp only [List.cons_append, List.find?_cons]
    cases hq : p q
    · simpa [hq] using ih
    · simp [hq]

theorem find?_replace (k v : String) :
    ∀ m : List (String × String), k ∈ m.map Prod.fst →
      (m.map (fun p => if p.1 = k then (k, v) else p)).find?
        (fun p => p.1 = k) = some (k, v) := by
  intro m
  induction m with
  | nil => intro h; cases h
  | cons q m ih =>
    intro hk
    by_cases hq : q.1 = k
    · simp only [List.map_cons, if_pos hq, List.find?_cons]
      simp
    · simp only [List.map_cons, if_neg hq, List.find?_cons,
        decide_eq_false hq]
      apply ih
      rcases List.mem_map.mp hk with ⟨r, hr, he⟩
      rcases List.mem_cons.mp hr with rfl | hr
      · exact absurd he hq
      · exact he ▸ List.mem_map_of_mem Prod.fst hr

theorem find?_replace_other (k v n : String) (hne : ¬ k = n) :
    ∀ m : List (String × String),
      (m.map (fun p => if p.1 = k then (k, v) else p)).find?
        (fun p => p.1 = n) = m.find? (fun p => p.1 = n) := by
  intro m
  induction m with
  | nil => rfl
  | cons q m ih =>
    by_cases hq : q.1 = k
    · simp only [List.map_cons, if_pos hq, List.find?_cons,
        decide_eq_false hne, decide_eq_false (hq ▸ hne : ¬ q.1 = n)]
      exact ih
    · simp only [List.map_cons, if_neg hq, List.find?_cons]
      cases hqn : (decide (q.1 = n))
      · exact ih
      · rfl

theorem find?_mapSet_self (m : List (String × String)) (k v : String) :
    (mapSet m k v).find? (fun p => p.1 = k) = some (k, v) := by
  by_cases hk : k ∈ m.map Prod.fst
  · simp only [mapSet, if_pos ((any_key_iff m k).mpr hk)]
    exact find?_replace k v m hk
  · rw [mapSet_of_not_mem m k v hk, find?_append_single]
    have hnone : m.find? (fun p => p.1 = k) = none := by
      apply List.find?_eq_none.mpr
      intro p hp
      simp only [decide_eq_true_eq]
      intro hc
      exact hk (hc ▸ List.mem_map_of_mem Prod.fst hp)
    rw [hnone]
    simp

theorem find?_mapSet_other (m : List (String × String)) (k v n : String)
    (hne : ¬ k = n) :
    (mapSet m k v).find? (fun p => p.1 = n) = m.find? (fun p => p.1 = n) := by
  by_cases hk : k ∈ m.map Prod.fst
  · simp only [mapSet, if_pos ((any_key_iff m k).mpr hk)]
    exact find?_replace_other k v n hne m
  · rw [mapSet_of_not_mem m k v hk, find?_append_single]
    cases hf : m.find? (fun p => p.1 = n)
    · simp [decide_eq_false hne]
    · simp

theorem build_find (f : String → String) (n : String) :
    ∀ (files : List String) (m : List (String × String)),
      (m.map Prod.fst).Nodup →
      (files.foldl (fun m g => mapSet m (f g) g) m).find? (fun p => p.1 = n) =
        files.foldl (fun acc g => if f g = n then some (n, g) else acc)
          (m.find? (fun p => p.1 = n)) := by
  intro files
  induction files with
  | nil => intro m _; rfl
  | cons g files ih =>
    intro m hnd
    simp only [List.foldl_cons]
    rw [ih (mapSet m (f g) g) (mapSet_keys_nodup m (f g) g hnd)]
    congr 1
    by_cases hg : f g = n
    · rw [if_pos hg, ← hg, find?_mapSet_self m (f g) g, hg]
    · rw [if_neg hg, find?_mapSet_other m (f g) g n hg]

theorem lastAcc_eq_reverse_find (f : String → String) (n : String) :
    ∀ (files : List String) (acc : Option (String × String)),
      files.foldl (fun acc g => if f g = n then some (n, g) else acc) acc =
        match files.reverse.find? (fun g => f g = n) with
        | some g => some (n, g)
        | none => acc := by
  intro files
  induction files with
  | nil => intro acc; rfl
  | cons g files ih =>
    intro acc
    simp only [List.foldl_cons, List.reverse_cons]
    rw [ih]
    have happ : ∀ l : List String,
        (l ++ [g]).find? (fun x => f x = n) =
          match l.find? (fun x => f x = n) with
          | some x => some x
          | none => if f g = n then some g else none := by
      intro l
      induction l with
      | nil => by_cases hg : f g = n <;> simp [List.find?, hg]
      | cons q l ihl =>
        simp only [List.cons_append, List.find?_cons]
        cases hq : (decide (f q = n))
        · simpa [hq] using ihl
        · simp [hq]
    rw [happ]
    cases hf : files.reverse.find? (fun x => f x = n)
    · by_cases hg : f g = n
      · simp [hg]
      · simp [hg, decide_eq_false hg]
    · simp

theorem values_filter_key (f : String → String) (n : String) :
    ∀ (m : List (String × String)) (p : String × String),
      MapInv f m → m.find? (fun q => q.1 = n) = some p →
      (m.map Prod.snd).filter (fun v => f v = n) = [p.2] := by
  intro m
  induction m with
  | nil => intro p _ hf; cases hf
  | cons q m ih =>
    intro p hinv hfind
    have hnd2 : ¬ q.1 ∈ m.map Prod.fst ∧ (m.map Prod.fst).Nodup := by
      simpa only [List.map_cons, List.nodup_cons] using hinv.1
    have hqv : q.1 = f q.2 := hinv.2 q (List.mem_cons_self q m)
    by_cases hq : q.1 = n
    · have hq_eq : q = p := by
        rw [List.find?_cons, decide_eq_true hq] at hfind
        exact Option.some.inj hfind
      have hnil : (m.map Prod.snd).filter (fun v => f v = n) = [] := by
        apply List.filter_eq_nil_iff.mpr
        intro v hv
        rcases List.mem_map.mp hv with ⟨r, hr, he⟩
        have hrv : r.1 = f r.2 := hinv.2 r (List.mem_cons_of_mem q hr)
        simp only [decide_eq_true_eq]
        intro hc
        apply hnd2.1
        rw [hq, ← hc, ← he, ← hrv]
        exact List.mem_map_of_mem Prod.fst hr
      rw [List.map_cons, List.filter_cons,
        if_pos (by simp [← hqv, hq]), hnil, ← hq_eq]
    · have hfind' : m.find? (fun r => r.1 = n) = some p := by
        rw [List.find?_cons, decide_eq_false hq] at hfind
        exact hfind
      rw [List.map_cons, List.filter_cons, if_neg (by simp [← hqv, hq])]
      exact ih p ⟨hnd2.2, fun r hr => hinv.2 r (List.mem_cons_of_mem q hr)⟩ hfind'

/-- C10: behaviour of `orderCubeFiles` (with a stored order present) under
duplicate table names.  When every file resolves to a distinct name the
output is a permutation of the input; in general the output has one file
per distinct name (so it is strictly shorter as soon as two files share a
name), and for each name the surviving file is the **last** input file
resolving to it — earlier ones are silently dropped. -/
theorem C10_orderCubeFiles_last_wins (nameOf : CubeType → String → String)
    (ct : CubeType) (eo : ExecutionOrder) (files : List String) :
    ((files.map (nameOf ct)).Nodup →
      List.Perm (orderCubeFiles nameOf ct (some eo) files) files) ∧
    (orderCubeFiles nameOf ct (some eo) files).length =
      (SchemaBuilder.insertionKeys (files.map (nameOf ct))).length ∧
    (¬ (files.map (nameOf ct)).Nodup →
      (orderCubeFiles nameOf ct (some eo) files).length < files.length) ∧
    (∀ n ∈ files.map (nameOf ct),
      (orderCubeFiles nameOf ct (some eo) files).filter
        (fun g => nameOf ct g = n) =
        [(files.reverse.find? (fun g => nameOf ct g = n)).getD ""]) := by
  have hminv := buildFileMap_inv (nameOf ct) files
  obtain ⟨⟨hnd, hsub⟩, hmem, hperm⟩ :=
    takeOrdered_facts (nameOf ct) eo.tables (buildFileMap (nameOf ct) files) hminv
  have hout : orderCubeFiles nameOf ct (some eo) files =
      (takeOrdered eo.tables (buildFileMap (nameOf ct) files)).1 ++
        (takeOrdered eo.tables (buildFileMap (nameOf ct) files)).2.map
          Prod.snd := rfl
  have hlen : (orderCubeFiles nameOf ct (some eo) files).length =
      (SchemaBuilder.insertionKeys (files.map (nameOf ct))).length := by
    rw [hout, hperm.length_eq, ← buildFileMap_keys (nameOf ct) files,
      List.length_map, List.length_map]
  refine ⟨?_, hlen, ?_, ?_⟩
  · intro hnodup
    rw [hout]
    have hvals : (buildFileMap (nameOf ct) files).map Prod.snd = files := by
      rw [buildFileMap_of_nodup (nameOf ct) files hnodup, List.map_map]
      exact List.map_id files
    have hperm2 := hperm
    rw [hvals] at hperm2
    exact hperm2
  · intro hdup
    rw [hlen]
    have h1 := insertionKeys_length_lt (files.map (nameOf ct)) hdup
    have h2 : (files.map (nameOf ct)).length = files.length := List.length_map _ _
    omega
  · intro n hn
    have hk : n ∈ (buildFileMap (nameOf ct) files).map Prod.fst := by
      rw [buildFileMap_keys]
      exact insertionKeys_mem.mpr hn
    rcases hfind : (buildFileMap (nameOf ct) files).find? (fun p => p.1 = n)
        with _ | p
    · exfalso
      rcases List.mem_map.mp hk with ⟨p, hp, he⟩
      have := List.find?_eq_none.mp hfind p hp
      simp [he] at this
    · have hchain := build_find (nameOf ct) n files [] List.nodup_nil
      rw [lastAcc_eq_reverse_find] at hchain
      have hfind2 : (buildFileMap (nameOf ct) files).find? (fun p => p.1 = n) =
          match files.reverse.find? (fun g => nameOf ct g = n) with
          | some g => some (n, g)
          | none => none := hchain
      rcases hrev : files.reverse.find? (fun g => nameOf ct g = n) with _ | g
      · rw [hrev] at hfind2
        rw [hfind] at hfind2
        cases hfind2
      · rw [hrev] at hfind2
        rw [hfind] at hfind2
        have hp_eq : p = (n, g) := Option.some.inj hfind2
        have hfilter := values_filter_key (nameOf ct) n
          (buildFileMap (nameOf ct) files) p hminv hfind
        have hpermf := hperm.filter (fun v => nameOf ct v = n)
        rw [hfilter, hp_eq] at hpermf
        rw [hout]
        simpa using List.perm_singleton.mp hpermf

/-- Witness for C10: with distinct names the output is a permutation of the
input; with two files both named `t` the output is shorter and keeps only
the later file. -/
theorem C10_orderCubeFiles_last_wins_witness :
    List.Perm (orderCubeFiles (fun _ f => f) CubeType.table
      (some ⟨["b1"], [], "ts"⟩) ["a1", "b1"]) ["a1", "b1"] ∧
    (orderCubeFiles (fun _ _ => "t") CubeType.table
      (some ⟨[], [], "ts"⟩) ["a1", "a2"]).length <
      (["a1", "a2"] : List String).length ∧
    (orderCubeFiles (fun _ _ => "t") CubeType.table
      (some ⟨[], [], "ts"⟩) ["a1", "a2"]).filter
        (fun g => (fun (_ : CubeType) (_ : String) => "t") CubeType.table g = "t") =
      [((["a1", "a2"] : List String).reverse.find?
        (fun g => (fun (_ : CubeType) (_ : String) => "t") CubeType.table g = "t")).getD ""] :=
  ⟨(C10_orderCubeFiles_last_wins (fun _ f => f) CubeType.table
      ⟨["b1"], [], "ts"⟩ ["a1", "b1"]).1 (by decide),
    (C10_orderCubeFiles_last_wins (fun _ _ => "t") CubeType.table
      ⟨[], [], "ts"⟩ ["a1", "a2"]).2.2.1 (by decide),
    (C10_orderCubeFiles_last_wins (fun _ _ => "t") CubeType.table
      ⟨[], [], "ts"⟩ ["a1", "a2"]).2.2.2 "t" (by decide)⟩

/-- C6: `orderCubeFiles` reads only the `tables` field of the stored
execution order — for either cube-file category, two stored orders that
differ only in their `seeders` field produce identical outputs. -/
theorem C6_orderCubeFiles_ignores_seeders
    (nameOf : CubeType → String → String) (ct : CubeType)
    (tables seeders₁ seeders₂ : List String) (ts : String)
    (cubeFiles : List String) :
    orderCubeFiles nameOf ct (some ⟨tables, seeders₁, ts⟩) cubeFiles =
    orderCubeFiles nameOf ct (some ⟨tables, seeders₂, ts⟩) cubeFiles := rfl

end DependencyResolver

namespace CubeValidator

open SchemaBuilder

/-- C9: a failed file read never throws out of `validateCubeFile` (the
model is a total function); it yields `isValid = false` with exactly one
error, attributed to line 1, whose message text extends the read
exception's message. -/
theorem C9_validateCubeFile_read_failure (filePath fileName msg : String) :
    validateCubeFile filePath fileName (Except.error msg) =
      { isValid := false,
        errors := [⟨fileName, VKind.readFailure msg, 1⟩] } ∧
    renderMessage (VKind.readFailure msg) = "Failed to read cube file: " ++ msg :=
  ⟨rfl, rfl⟩

theorem greedyCapture_append (cs : List Char) (h : ¬ ']' ∈ cs) :
    greedyCapture (cs ++ ']' :: ';' :: []) = some cs := by
  induction cs with
  | nil => decide
  | cons c cs ih =>
    have hc : ¬ ']' ∈ cs := fun hm => h (List.mem_cons_of_mem c hm)
    have hstep : greedyCapture ((c :: cs) ++ ']' :: ';' :: []) =
        match greedyCapture (cs ++ ']' :: ';' :: []) with
        | some cap => some (c :: cap)
        | none =>
          if c = ']' ∧ suffixSemiOk (cs ++ ']' :: ';' :: []) = true
          then some [] else none := rfl
    rw [hstep, ih hc]

theorem mem_dropWhile_of_special (d : Char) (hd : isOptionSpecial d = true) :
    ∀ l : List Char, d ∈ l →
      d ∈ l.dropWhile (fun x => ¬ isOptionSpecial x) := by
  intro l
  induction l with
  | nil => intro h; cases h
  | cons c rest ih =>
    intro hmem
    rw [List.dropWhile_cons]
    by_cases hc : isOptionSpecial c = true
    · rw [if_neg (by simp [hc])]
      exact hmem
    · rw [if_pos (by simp [hc])]
      rcases List.mem_cons.mp hmem with rfl | hmem
      · exact absurd hd hc
      · exact ih hmem

theorem noDquote_false_of_mem (rest : List Char) (h : dquote ∈ rest) :
    noDquote rest = false := by
  rw [← Bool.not_eq_true]
  intro hc
  simp only [noDquote, List.all_eq_true] at hc
  have := hc dquote h
  simp at this

theorem shrinkRun_none (rest : List Char) (h : dquote ∈ rest) :
    ∀ rrun : List Char, shrinkRun rrun rest = none := by
  intro rrun
  induction rrun generalizing rest h with
  | nil => rfl
  | cons c rrun ih =>
    simp only [shrinkRun, noDquote_false_of_mem rest h, Bool.false_eq_true,
      if_neg, if_false]
    exact ih (c :: rest) (List.mem_cons_of_mem c h)

theorem fit_cons_special (c : Char) (rest : List Char)
    (h : isOptionSpecial c = true) :
    findInvalidToken (c :: rest) = findInvalidToken rest := by
  simp only [findInvalidToken, h]
  simp

theorem fit_append_dquote (v : List Char) (hv : dquote ∈ v) :
    ∀ u : List Char, findInvalidToken (u ++ v) = findInvalidToken v := by
  intro u
  induction u with
  | nil => rfl
  | cons c u ih =>
    by_cases hc : isOptionSpecial c = true
    · rw [List.cons_append, fit_cons_special c (u ++ v) hc, ih]
    · have hmem : dquote ∈ (c :: u ++ v).dropWhile
          (fun x => ¬ isOptionSpecial x) := by
        apply mem_dropWhile_of_special dquote (by decide)
        exact List.mem_append.mpr (Or.inr hv)
      rw [List.cons_append]
      simp only [findInvalidToken]
      rw [if_pos (by simp [hc]), shrinkRun_none _ (by simpa using hmem)]
      exact ih

theorem fit_append_last_dquote : ∀ u : List Char,
    findInvalidToken (u ++ [dquote]) = none := by
  intro u
  induction u with
  | nil => decide
  | cons c u ih =>
    by_cases hc : isOptionSpecial c = true
    · rw [List.cons_append, fit_cons_special c (u ++ [dquote]) hc, ih]
    · have hmem : dquote ∈ (c :: u ++ [dquote]).dropWhile
          (fun x => ¬ isOptionSpecial x) := by
        apply mem_dropWhile_of_special dquote (by decide)
        exact List.mem_append.mpr (Or.inr (List.mem_singleton.mpr rfl))
      rw [List.cons_append]
      simp only [findInvalidToken]
      rw [if_pos (by simp [hc]), shrinkRun_none _ (by simpa using hmem)]
      exact ih

theorem joinQuoted_ends (entries : List String) (h : ¬ entries = []) :
    ∃ u : List Char, joinQuoted entries = u ++ [dquote] := by
  induction entries with
  | nil => exact absurd rfl h
  | cons e rest ih =>
    match rest with
    | [] => exact ⟨dquote :: e.data, by simp [joinQuoted]⟩
    | e' :: rest' =>
      rcases ih (by simp) with ⟨u, hu⟩
      refine ⟨(dquote :: e.data ++ [dquote]) ++ ',' :: ' ' :: u, ?_⟩
      simp only [joinQuoted, hu]
      simp

theorem findInvalidToken_joinQuoted (entries : List String)
    (h : ¬ entries = []) : findInvalidToken (joinQuoted entries) = none := by
  rcases joinQuoted_ends entries h with ⟨u, hu⟩
  rw [hu]
  exact fit_append_last_dquote u

theorem extractQuotedGo_run (t : List Char) :
    ∀ (s acc : List Char), ¬ dquote ∈ s →
      extractQuotedGo (s ++ dquote :: t) (some acc) =
        String.mk (acc.reverse ++ s) :: extractQuotedGo t none := by
  intro s
  induction s with
  | nil =>
    intro acc _
    simp [extractQuotedGo]
  | cons c s ih =>
    intro acc hs
    have hc : ¬ c = dquote := fun he => hs (he ▸ List.mem_cons_self c s)
    have hstep : extractQuotedGo ((c :: s) ++ dquote :: t) (some acc) =
        extractQuotedGo (s ++ dquote :: t) (some (c :: acc)) := by
      show (if c = dquote then
        String.mk acc.reverse :: extractQuotedGo (s ++ dquote :: t) none
        else extractQuotedGo (s ++ dquote :: t) (some (c :: acc))) = _
      rw [if_neg hc]
    rw [hstep, ih (c :: acc) (fun hm => hs (List.mem_cons_of_mem c hm))]
    simp

theorem extractQuoted_joinQuoted : ∀ entries : List String,
    (∀ e ∈ entries, ¬ dquote ∈ e.data) →
    extractQuoted (joinQuoted entries) = entries := by
  intro entries
  induction entries with
  | nil => intro _; rfl
  | cons e rest ih =>
    intro hnd
    have he : ¬ dquote ∈ e.data := hnd e (List.mem_cons_self e rest)
    match rest with
    | [] =>
      show extractQuotedGo (dquote :: (e.data ++ [dquote])) none = [e]
      rw [show extractQuotedGo (dquote :: (e.data ++ [dquote])) none =
        extractQuotedGo (e.data ++ dquote :: []) (some []) from rfl]
      rw [extractQuotedGo_run [] e.data [] he]
      show [String.mk ([].reverse ++ e.data)] = [e]
      congr 1
    | e' :: rest' =>
      have hassoc : joinQuoted (e :: e' :: rest') =
          dquote :: (e.data ++ dquote :: ',' :: ' ' :: joinQuoted (e' :: rest')) := by
        show (dquote :: e.data ++ [dquote]) ++ ',' :: ' ' :: joinQuoted (e' :: rest') = _
        simp [List.append_assoc]
      show extractQuotedGo (joinQuoted (e :: e' :: rest')) none = e :: e' :: rest'
      rw [hassoc]
      rw [show extractQuotedGo
          (dquote :: (e.data ++ dquote :: ',' :: ' ' :: joinQuoted (e' :: rest'))) none =
        extractQuotedGo (e.data ++ dquote :: ',' :: ' ' :: joinQuoted (e' :: rest'))
          (some []) from rfl]
      rw [extractQuotedGo_run (',' :: ' ' :: joinQuoted (e' :: rest')) e.data [] he]
      rw [show extractQuotedGo (',' :: ' ' :: joinQuoted (e' :: rest')) none =
        extractQuotedGo (joinQuoted (e' :: rest')) none from rfl]
      rw [show extractQuotedGo (joinQuoted (e' :: rest')) none =
        extractQuoted (joinQuoted (e' :: rest')) from rfl]
      rw [ih (fun g hg => hnd g (List.mem_cons_of_mem e hg))]
      congr 1

theorem dropWhile_eq_self_of_head (l : List Char) (c : Char)
    (hh : l.head? = some c) (hs : ¬ isSpace c = true) :
    l.dropWhile isSpace = l := by
  match l with
  | [] => cases hh
  | a :: t =>
    have : a = c := by simpa using hh
    rw [List.dropWhile_cons, if_neg (by simp [this, hs])]

theorem trimL_eq_self (s : List Char) (c₁ c₂ : Char) (h1 : s.head? = some c₁)
    (hs1 : ¬ isSpace c₁ = true) (h2 : s.getLast? = some c₂)
    (hs2 : ¬ isSpace c₂ = true) : trimL s = s := by
  unfold trimL
  rw [dropWhile_eq_self_of_head s c₁ h1 hs1,
    dropWhile_eq_self_of_head s.reverse c₂ (by rw [List.head?_reverse]; exact h2) hs2,
    List.reverse_reverse]

theorem joinQuoted_head (entries : List String) (h : ¬ entries = []) :
    (joinQuoted entries).head? = some dquote := by
  match entries with
  | [] => exact absurd rfl h
  | [e] => rfl
  | e :: e' :: rest => rfl

theorem joinQuoted_no_rbracket : ∀ entries : List String,
    (∀ e ∈ entries, ¬ ']' ∈ e.data) → ¬ ']' ∈ joinQuoted entries := by
  intro entries
  induction entries with
  | nil => intro _ hc; cases hc
  | cons e rest ih =>
    intro hnb hc
    have he : ¬ ']' ∈ e.data := hnb e (List.mem_cons_self e rest)
    match rest with
    | [] =>
      simp only [joinQuoted] at hc
      rcases List.mem_cons.mp hc with h | h
      · exact absurd h (by decide)
      · rcases List.mem_append.mp h with h | h
        · exact he h
        · exact absurd (List.mem_singleton.mp h) (by decide)
    | e' :: rest' =>
      simp only [joinQuoted] at hc
      rcases List.mem_append.mp hc with h | h
      · rcases List.mem_cons.mp h with h | h
        · exact absurd h (by decide)
        · rcases List.mem_append.mp h with h | h
          · exact he h
          · exact absurd (List.mem_singleton.mp h) (by decide)
      · rcases List.mem_cons.mp h with h | h
        · exact absurd h (by decide)
        · rcases List.mem_cons.mp h with h | h
          · exact absurd h (by decide)
          · exact ih (fun g hg => hnb g (List.mem_cons_of_mem e hg)) h

theorem parseOptionsLine_build (X : List Char) :
    parseOptionsLine ("options: [".data ++ X ++ "];".data) =
      (greedyCapture (X ++ ']' :: ';' :: [])).map trimL := rfl

theorem parseOptionsLine_joinQuoted (entries : List String)
    (h : ¬ entries = []) (hnb : ∀ e ∈ entries, ¬ ']' ∈ e.data) :
    parseOptionsLine (buildOptionsLine entries) = some (joinQuoted entries) := by
  rw [buildOptionsLine, parseOptionsLine_build,
    greedyCapture_append _ (joinQuoted_no_rbracket entries hnb)]
  simp only [Option.map_some']
  congr 1
  rcases joinQuoted_ends entries h with ⟨u, hu⟩
  exact trimL_eq_self _ dquote dquote (joinQuoted_head entries h) (by decide)
    (by rw [hu, List.getLast?_concat]) (by decide)

theorem validOptions_facts : ∀ e ∈ validOptions,
    ¬ ']' ∈ e.data ∧ ¬ dquote ∈ e.data ∧ ¬ trimS e = "" := by decide

/-- C5 (amended): an options line whose entries are **double**-quoted
members of the option whitelist parses, is not flagged as invalid syntax,
and has its entries extracted as the quoted strings; the only errors the
options check can then produce are type-compatibility ones.  (As C5 is
stated — for single-quoted entries — the claim is false, see the
counterexample: the invalid-syntax regex treats a single-quoted entry as an
unquoted token.) -/
theorem C5_options_double_quoted_accepted (fileName : String)
    (lines : List (List Char)) (n : Nat) (entries : List String)
    (hne : ¬ entries = []) (hval : ∀ e ∈ entries, e ∈ validOptions) :
    parseOptionsLine (buildOptionsLine entries) = some (joinQuoted entries) ∧
    findInvalidToken (joinQuoted entries) = none ∧
    extractQuoted (joinQuoted entries) = entries ∧
    ∀ err ∈ validateColumnOptionsL fileName lines (buildOptionsLine entries) n,
      ∀ tok, ¬ err.kind = VKind.invalidSyntaxOption tok := by
  have hnb : ∀ e ∈ entries, ¬ ']' ∈ e.data :=
    fun e he => (validOptions_facts e (hval e he)).1
  have hnq : ∀ e ∈ entries, ¬ dquote ∈ e.data :=
    fun e he => (validOptions_facts e (hval e he)).2.1
  have hparse := parseOptionsLine_joinQuoted entries hne hnb
  have hfit := findInvalidToken_joinQuoted entries hne
  have hex := extractQuoted_joinQuoted entries hnq
  refine ⟨hparse, hfit, hex, ?_⟩
  intro err herr tok
  rw [validateColumnOptionsL] at herr
  rw [hparse] at herr
  simp only [hfit] at herr
  rw [hex] at herr
  rcases List.mem_flatMap.mp herr with ⟨e, he, herr'⟩
  have hew := hval e he
  rw [optionEntryErrors, if_neg (validOptions_facts e hew).2.2,
    if_pos hew] at herr'
  by_cases hcomp : ¬ getColumnTypeForOptions lines (n - 1) = "unknown" ∧
      ¬ isOptionCompatibleWithType e (getColumnTypeForOptions lines (n - 1)) = true
  · rw [if_pos hcomp] at herr'
    rcases List.mem_singleton.mp herr' with rfl
    simp
  · rw [if_neg hcomp] at herr'
    cases herr'

/-- Counterexample to C5 as stated: the line `options: ['primary'];` — a
single-quoted whitelist member — produces an "Invalid syntax" error (the
regex only recognises double-quoted entries). -/
theorem C5_counterexample_single_quoted :
    validateColumnOptionsL "users" [] "options: ['primary'];".data 1 =
      [⟨"users", VKind.invalidSyntaxOption "'primary'", 1⟩] := by decide

/-- Witness for the amended C5 at the concrete entry list `["primary"]`. -/
theorem C5_options_double_quoted_accepted_witness :
    parseOptionsLine (buildOptionsLine ["primary"]) =
      some (joinQuoted ["primary"]) ∧
    findInvalidToken (joinQuoted ["primary"]) = none ∧
    extractQuoted (joinQuoted ["primary"]) = ["primary"] ∧
    ∀ err ∈ validateColumnOptionsL "users" [] (buildOptionsLine ["primary"]) 1,
      ∀ tok, ¬ err.kind = VKind.invalidSyntaxOption tok :=
  C5_options_double_quoted_accepted "users" [] 1 ["primary"] (by decide)
    (by decide)

theorem takeWhile_all_eq_self (p : Char → Bool) :
    ∀ l : List Char, (∀ c ∈ l, p c = true) → l.takeWhile p = l := by
  intro l
  induction l with
  | nil => intro _; rfl
  | cons c rest ih =>
    intro h
    rw [List.takeWhile_cons, if_pos (h c (List.mem_cons_self c rest))]
    rw [ih (fun d hd => h d (List.mem_cons_of_mem c hd))]

theorem dropWhile_all_eq_nil (p : Char → Bool) :
    ∀ l : List Char, (∀ c ∈ l, p c = true) → l.dropWhile p = [] := by
  intro l
  induction l with
  | nil => intro _; rfl
  | cons c rest ih =>
    intro h
    rw [List.dropWhile_cons, if_pos (h c (List.mem_cons_self c rest))]
    exact ih (fun d hd => h d (List.mem_cons_of_mem c hd))

theorem fit_all_nonspecial (w : List Char) (hw : ¬ w = [])
    (hns : ∀ c ∈ w, ¬ isOptionSpecial c = true) :
    findInvalidToken w = some (String.mk w) := by
  match w with
  | [] => exact absurd rfl hw
  | c :: rest =>
    have hc : ¬ isOptionSpecial c = true := hns c (List.mem_cons_self c rest)
    simp only [findInvalidToken]
    rw [if_pos (by simp [hc])]
    rw [takeWhile_all_eq_self _ (c :: rest) (by
      intro d hd
      simp [hns d hd])]
    rw [dropWhile_all_eq_nil _ (c :: rest) (by
      intro d hd
      simp [hns d hd])]
    rcases hrev : (c :: rest).reverse with _ | ⟨x, rr⟩
    · exact absurd (by simpa using congrArg List.reverse hrev)
        (List.cons_ne_nil c rest)
    · show (match shrinkRun (x :: rr) [] with
        | some run => some (String.mk run)
        | none => findInvalidToken rest) = some (String.mk (c :: rest))
      simp only [shrinkRun, noDquote, List.all_nil, if_pos]
      have : (x :: rr).reverse = c :: rest := by
        rw [← hrev, List.reverse_reverse]
      rw [this]

theorem fit_prefix_bare (w : List Char) (hw : ¬ w = [])
    (hns : ∀ c ∈ w, ¬ isOptionSpecial c = true) :
    findInvalidToken (dquote :: ',' :: ' ' :: w) = some (String.mk w) := by
  rw [fit_cons_special dquote (',' :: ' ' :: w) (by decide),
    fit_cons_special ',' (' ' :: w) (by decide),
    fit_cons_special ' ' w (by decide)]
  exact fit_all_nonspecial w hw hns

theorem findInvalidToken_joinQuotedBare (qs : List String) (w : String)
    (hw : ¬ w.data = [])
    (hns : ∀ c ∈ w.data, ¬ isOptionSpecial c = true) :
    findInvalidToken (joinQuotedBare qs w) = some w := by
  have hmk : String.mk w.data = w := by cases w; rfl
  match qs with
  | [] =>
    rw [show joinQuotedBare [] w = w.data from rfl]
    rw [fit_all_nonspecial w.data hw hns, hmk]
  | q :: qs' =>
    rcases joinQuoted_ends (q :: qs') (by simp) with ⟨u, hu⟩
    rw [show joinQuotedBare (q :: qs') w =
      joinQuoted (q :: qs') ++ ',' :: ' ' :: w.data from rfl, hu]
    rw [show (u ++ [dquote]) ++ ',' :: ' ' :: w.data =
      u ++ (dquote :: ',' :: ' ' :: w.data) from by simp]
    rw [fit_append_dquote (dquote :: ',' :: ' ' :: w.data)
      (List.mem_cons_self dquote _) u]
    rw [fit_prefix_bare w.data hw hns, hmk]

theorem isSpace_imp_special (c : Char) (h : isSpace c = true) :
    isOptionSpecial c = true := by
  simp only [isOptionSpecial, decide_eq_true_eq]
  exact Or.inr (Or.inr h)

theorem joinQuotedBare_no_rbracket (qs : List String) (w : String)
    (hqc : ∀ c ∈ w.data, ¬ c = ']') (hqs : ∀ e ∈ qs, ¬ ']' ∈ e.data) :
    ¬ ']' ∈ joinQuotedBare qs w := by
  match qs with
  | [] =>
    intro hc
    exact hqc ']' hc rfl
  | q :: qs' =>
    intro hc
    rw [show joinQuotedBare (q :: qs') w =
      joinQuoted (q :: qs') ++ ',' :: ' ' :: w.data from rfl] at hc
    rcases List.mem_append.mp hc with h | h
    · exact joinQuoted_no_rbracket (q :: qs') hqs h
    · rcases List.mem_cons.mp h with h | h
      · cases h
      · rcases List.mem_cons.mp h with h | h
        · cases h
        · exact hqc ']' h rfl

theorem joinQuotedBare_trim (qs : List String) (w : String)
    (hw : ¬ w.data = [])
    (hns : ∀ c ∈ w.data, ¬ isOptionSpecial c = true) :
    trimL (joinQuotedBare qs w) = joinQuotedBare qs w := by
  have hlast : ∃ u c, w.data = u ++ [c] := by
    rcases List.eq_nil_or_concat w.data with h | ⟨u, c, h⟩
    · exact absurd h hw
    · exact ⟨u, c, by rw [h, List.concat_eq_append]⟩
  rcases hlast with ⟨u, c, hu⟩
  have hcmem : c ∈ w.data := by
    rw [hu]; exact List.mem_append.mpr (Or.inr (List.mem_singleton.mpr rfl))
  have hcns : ¬ isSpace c = true := fun hs => hns c hcmem (isSpace_imp_special c hs)
  match qs with
  | [] =>
    rw [show joinQuotedBare [] w = w.data from rfl]
    match hw2 : w.data with
    | [] => exact absurd hw2 hw
    | a :: t =>
      have hans : ¬ isSpace a = true := fun hs =>
        hns a (by rw [hw2]; exact List.mem_cons_self a t) (isSpace_imp_special a hs)
      apply trimL_eq_self _ a c (by rw [← hw2]  ; rw [hw2]; rfl) hans ?_ hcns
      rw [← hw2, hu, List.getLast?_concat]
  | q :: qs' =>
    have hjoin : joinQuotedBare (q :: qs') w =
        joinQuoted (q :: qs') ++ ',' :: ' ' :: w.data := rfl
    apply trimL_eq_self _ dquote c ?_ (by decide) ?_ hcns
    · rw [hjoin]
      rcases hj : joinQuoted (q :: qs') with _ | ⟨a, t⟩
      · exact absurd (congrArg List.head? hj)
          (by rw [joinQuoted_head (q :: qs') (by simp)]; simp)
      · have := joinQuoted_head (q :: qs') (by simp)
        rw [hj] at this
        simpa using this
    · rw [hjoin, hu]
      rw [show joinQuoted (q :: qs') ++ ',' :: ' ' :: (u ++ [c]) =
        (joinQuoted (q :: qs') ++ ',' :: ' ' :: u) ++ [c] from by simp]
      exact List.getLast?_concat _

/-- C8 (amended): the one-«Invalid syntax»-error-and-stop behaviour holds
when the unquoted bare word appears **after** the last double-quoted entry:
the options check then reports exactly that token and performs no
option-level checks.  (As C8 is stated — for a bare word anywhere among the
entries — the claim fails: when a double-quoted entry follows the bare
word, the lookahead of the invalid-syntax regex rejects every match and the
bare word is silently ignored; see the counterexample.) -/
theorem C8_options_trailing_bare_short_circuits (fileName : String)
    (lines : List (List Char)) (n : Nat) (qs : List String) (w : String)
    (hw : ¬ w.data = [])
    (hwc : ∀ c ∈ w.data, ¬ isOptionSpecial c = true ∧ ¬ c = ']')
    (hqs : ∀ e ∈ qs, ¬ ']' ∈ e.data) :
    validateColumnOptionsL fileName lines (buildOptionsLineBare qs w) n =
      [⟨fileName, VKind.invalidSyntaxOption w, n⟩] := by
  have hns : ∀ c ∈ w.data, ¬ isOptionSpecial c = true := fun c hc => (hwc c hc).1
  have hnb : ∀ c ∈ w.data, ¬ c = ']' := fun c hc => (hwc c hc).2
  have hparse : parseOptionsLine (buildOptionsLineBare qs w) =
      some (joinQuotedBare qs w) := by
    rw [buildOptionsLineBare, parseOptionsLine_build,
      greedyCapture_append _ (joinQuotedBare_no_rbracket qs w hnb hqs)]
    simp only [Option.map_some']
    rw [joinQuotedBare_trim qs w hw hns]
  simp only [validateColumnOptionsL, hparse]
  rw [findInvalidToken_joinQuotedBare qs w hw hns]

/-- Counterexample to C8 as stated: in `options: [primary, "primary"];` the
bare word `primary` is followed by a double-quoted entry, so the
invalid-syntax regex finds no match at all — the line produces **zero**
errors instead of the claimed single "Invalid syntax" error. -/
theorem C8_counterexample_bare_before_quoted :
    validateColumnOptionsL "users" [] "options: [primary, \"primary\"];".data 1 =
      [] := by decide

/-- Witness for the amended C8 at `options: ["primary", bad];`. -/
theorem C8_options_trailing_bare_short_circuits_witness :
    validateColumnOptionsL "users" []
      (buildOptionsLineBare ["primary"] "bad") 1 =
      [⟨"users", VKind.invalidSyntaxOption "bad", 1⟩] :=
  C8_options_trailing_bare_short_circuits "users" [] 1 ["primary"] "bad"
    (by decide) (by decide) (by decide)

theorem annotations_filter_nil (fn : String) (line : List Char) (m n : Nat) :
    (validateAnnotationsL fn line m).filter (isVarcharErrAt n) = [] := by
  rw [List.filter_eq_nil_iff]
  intro e he
  simp only [validateAnnotationsL] at he
  rcases List.mem_filterMap.mp he with ⟨a, _, hg⟩
  split at hg
  · cases hg
  · cases hg
    simp [isVarcharErrAt]

theorem scanTypes_filter_nil (fn : String) (line : List Char) (m n : Nat) :
    ((scanTypes line).filterMap (fun t =>
        if t ∈ validTypes then none
        else some (⟨fn, VKind.invalidType t, m⟩ : VError))).filter
      (isVarcharErrAt n) = [] := by
  rw [List.filter_eq_nil_iff]
  intro e he
  rcases List.mem_filterMap.mp he with ⟨t, _, hg⟩
  split at hg
  · cases hg
  · cases hg
    simp [isVarcharErrAt]

theorem colOptions_filter_nil (fn : String) (lines : List (List Char))
    (line : List Char) (m n : Nat) :
    (validateColumnOptionsL fn lines line m).filter (isVarcharErrAt n) = [] := by
  rw [List.filter_eq_nil_iff]
  intro e he
  simp only [validateColumnOptionsL] at he
  split at he
  · cases he
  · split at he
    · rw [List.mem_singleton] at he
      subst he
      simp [isVarcharErrAt]
    · rcases List.mem_flatMap.mp he with ⟨o, _, ho⟩
      simp only [optionEntryErrors] at ho
      split at ho
      · rw [List.mem_singleton] at ho
        subst ho
        simp [isVarcharErrAt]
      · split at ho
        · split at ho
          · rw [List.mem_singleton] at ho
            subst ho
            simp [isVarcharErrAt]
          · cases ho
        · rw [List.mem_singleton] at ho
          subst ho
          simp [isVarcharErrAt]

theorem colProps_filter_nil (fn : String) (lines : List (List Char))
    (line : List Char) (m n : Nat) :
    (validateColumnPropertiesL fn lines line m).filter (isVarcharErrAt n)
      = [] := by
  rw [List.filter_eq_nil_iff]
  intro e he
  simp only [validateColumnPropertiesL] at he
  split at he
  · cases he
  · split at he
    · cases he
    · split at he
      · split at he
        · cases he
        · rw [List.mem_singleton] at he
          subst he
          simp [isVarcharErrAt]
      · rcases List.mem_append.mp he with h | h
        · split at h
          · split at h
            · cases h
            · rw [List.mem_singleton] at h
              subst h
              simp [isVarcharErrAt]
          · cases h
        · split at h
          · rw [List.mem_singleton] at h
            subst h
            simp [isVarcharErrAt]
          · cases h

theorem required_filter_nil (fn : String) (lines : List (List Char))
    (m n : Nat) :
    (validateRequiredL fn lines m).filter (isVarcharErrAt n) = [] := by
  rw [List.filter_eq_nil_iff]
  intro e he
  simp only [validateRequiredL] at he
  split at he
  · cases he
  · split at he
    · cases he
    · split at he
      · rw [List.mem_singleton] at he
        subst he
        simp [isVarcharErrAt]
      · cases he

theorem genSyntax_filter_nil (fn : String) (line : List Char) (m n : Nat) :
    (validateGeneralSyntaxL fn line m).filter (isVarcharErrAt n) = [] := by
  rw [List.filter_eq_nil_iff]
  intro e he
  simp only [validateGeneralSyntaxL] at he
  rcases List.mem_append.mp he with h | h
  · rcases List.mem_append.mp h with h2 | h2
    · split at h2
      · rw [List.mem_singleton] at h2
        subst h2
        simp [isVarcharErrAt]
      · cases h2
    · split at h2
      · split at h2
        · cases h2
        · rw [List.mem_singleton] at h2
          subst h2
          simp [isVarcharErrAt]
      · cases h2
  · split at h
    · split at h
      · cases h
      · rw [List.mem_singleton] at h
        subst h
        simp [isVarcharErrAt]
    · cases h

theorem overall_filter_nil (fn fp : String) (lines : List (List Char))
    (n : Nat) :
    (validateOverallStructureL fn fp lines).filter (isVarcharErrAt n) = [] := by
  rw [List.filter_eq_nil_iff]
  intro e he
  simp only [validateOverallStructureL] at he
  rcases List.mem_append.mp he with h | h
  · split at h
    · cases h
    · rw [List.mem_singleton] at h
      subst h
      simp [isVarcharErrAt]
  · split at h
    · split at h
      · cases h
      · rw [List.mem_singleton] at h
        subst h
        simp [isVarcharErrAt]
    · cases h

theorem dataTypes_filter_nil (fn : String) (lines : List (List Char))
    (line : List Char) (m n : Nat) (hmn : ¬ m = n) :
    (validateDataTypesL fn lines line m).filter (isVarcharErrAt n) = [] := by
  simp only [validateDataTypesL]
  rw [List.filter_append, scanTypes_filter_nil, List.nil_append]
  rw [List.filter_eq_nil_iff]
  intro e he
  split at he
  · split at he
    · cases he
    · rw [List.mem_singleton] at he
      subst he
      simp [isVarcharErrAt, hmn]
  · cases he

theorem dataTypes_filter_self (fn : String) (lines : List (List Char))
    (line : List Char) (n : Nat) :
    (validateDataTypesL fn lines line n).filter (isVarcharErrAt n) =
      (if includesL line "type: \"varchar\"".data then
        (if ((lines.drop (n - 1)).take 5).any
            (fun l => includesL l "length:".data) then []
         else [⟨fn, VKind.varcharNoLength, n⟩])
       else []) := by
  simp only [validateDataTypesL]
  rw [List.filter_append, scanTypes_filter_nil, List.nil_append]
  by_cases hinc : includesL line "type: \"varchar\"".data = true
  · rw [if_pos hinc]
    by_cases hany : ((lines.drop (n - 1)).take 5).any
        (fun l => includesL l "length:".data) = true
    · rw [if_pos hany]
      rfl
    · rw [if_neg hany]
      simp [isVarcharErrAt]
  · rw [if_neg hinc]
    rfl

theorem perLine_filter_nil (fn : String) (lines : List (List Char))
    (idx : Nat) (line : List Char) (n : Nat) (h : ¬ idx + 1 = n) :
    (perLineErrors fn lines idx line).filter (isVarcharErrAt n) = [] := by
  simp only [perLineErrors]
  split
  · rfl
  · simp only [List.filter_append]
    rw [annotations_filter_nil, dataTypes_filter_nil fn lines line (idx + 1) n h,
      colOptions_filter_nil, colProps_filter_nil, required_filter_nil,
      genSyntax_filter_nil]
    rfl

theorem perLine_filter_self (fn : String) (lines : List (List Char))
    (idx : Nat) (line : List Char) (n : Nat) (hidx : idx + 1 = n)
    (hskip : ¬ (trimL line = [] ∨ isPrefixL "//".data (trimL line) = true)) :
    (perLineErrors fn lines idx line).filter (isVarcharErrAt n) =
      (if includesL line "type: \"varchar\"".data then
        (if ((lines.drop (n - 1)).take 5).any
            (fun l => includesL l "length:".data) then []
         else [⟨fn, VKind.varcharNoLength, n⟩])
       else []) := by
  subst hidx
  simp only [perLineErrors]
  rw [if_neg hskip]
  simp only [List.filter_append]
  rw [annotations_filter_nil, colOptions_filter_nil, colProps_filter_nil,
    required_filter_nil, genSyntax_filter_nil, dataTypes_filter_self]
  simp only [List.nil_append, List.append_nil]

theorem flatMap_filter_single (lines2 : List (List Char)) (fn : String)
    (n : Nat) (hn : 1 ≤ n) :
    ∀ (ls : List (List Char)) (k : Nat),
      ((List.enumFrom k ls).flatMap
          (fun p => perLineErrors fn lines2 p.1 p.2)).filter
        (isVarcharErrAt n) =
      (if k ≤ n - 1 ∧ n - 1 - k < ls.length then
        (perLineErrors fn lines2 (n - 1) (ls.getD (n - 1 - k) [])).filter
          (isVarcharErrAt n)
       else []) := by
  intro ls
  induction ls with
  | nil =>
    intro k
    rw [if_neg (by simp)]
    rfl
  | cons a t ih =>
    intro k
    have hstep : (List.enumFrom k (a :: t)).flatMap
        (fun p => perLineErrors fn lines2 p.1 p.2)
        = perLineErrors fn lines2 k a
          ++ (List.enumFrom (k + 1) t).flatMap
            (fun p => perLineErrors fn lines2 p.1 p.2) := rfl
    rw [hstep, List.filter_append, ih (k + 1)]
    by_cases hk : k = n - 1
    · rw [if_neg (by omega), List.append_nil,
        if_pos ⟨by omega, by simp only [List.length_cons]; omega⟩]
      have h00 : n - 1 - k = 0 := by omega
      rw [h00, List.getD_cons_zero, hk]
    · rw [perLine_filter_nil fn lines2 k a n (by omega), List.nil_append]
      by_cases hc : k + 1 ≤ n - 1 ∧ n - 1 - (k + 1) < t.length
      · obtain ⟨hc1, hc2⟩ := hc
        rw [if_pos ⟨hc1, hc2⟩,
          if_pos ⟨by omega, by simp only [List.length_cons]; omega⟩]
        have hsucc : n - 1 - k = (n - 1 - (k + 1)) + 1 := by omega
        rw [hsucc, List.getD_cons_succ]
      · rw [if_neg hc, if_neg (by simp only [List.length_cons]; omega)]

/-- C7 (amended): the five-line `length:` window rule for `type: "varchar"`
holds for lines the validator actually visits: if line `n` of the file
contains `type: "varchar"` **and is neither blank nor a `//` comment line**,
then `validateCubeFile` emits exactly one `varcharNoLength` error (the only
kind whose message mentions "length specification" — second conjunct) at
line `n` when no line of the window contains `length:`, and none when one
does.  (As C7 is stated — for *every* line containing `type: "varchar"` —
the claim fails: the per-line loop of `validateCubeFile` skips blank and
comment lines before any check runs, so a comment line containing
`type: "varchar"` yields no error; see the counterexample.) -/
theorem C7_varchar_length_window (filePath fileName content : String)
    (n : Nat) (hn : 1 ≤ n)
    (hlt : n - 1 < (splitLines content.data).length)
    (hv : includesL ((splitLines content.data).getD (n - 1) [])
        "type: \"varchar\"".data = true)
    (hskip : ¬ (trimL ((splitLines content.data).getD (n - 1) []) = [] ∨
        isPrefixL "//".data
          (trimL ((splitLines content.data).getD (n - 1) [])) = true)) :
    ((validateCubeFile filePath fileName (Except.ok content)).errors.filter
        (isVarcharErrAt n) =
      (if (((splitLines content.data).drop (n - 1)).take 5).any
          (fun l => includesL l "length:".data) then []
       else [⟨fileName, VKind.varcharNoLength, n⟩])) ∧
    includesL (renderMessage VKind.varcharNoLength).data
      "length specification".data = true := by
  refine ⟨?_, by decide⟩
  have hErr : (validateCubeFile filePath fileName (Except.ok content)).errors
      = ((List.enumFrom 0 (splitLines content.data)).flatMap
          (fun p => perLineErrors fileName (splitLines content.data) p.1 p.2))
        ++ validateOverallStructureL fileName filePath
            (splitLines content.data) := rfl
  rw [hErr, List.filter_append, overall_filter_nil, List.append_nil]
  rw [flatMap_filter_single (splitLines content.data) fileName n hn
    (splitLines content.data) 0]
  rw [if_pos ⟨Nat.zero_le _, by rw [Nat.sub_zero]; exact hlt⟩]
  rw [Nat.sub_zero]
  rw [perLine_filter_self fileName (splitLines content.data) (n - 1)
    ((splitLines content.data).getD (n - 1) []) n (Nat.sub_add_cancel hn)
    hskip]
  rw [if_pos hv]

/-- Counterexample to C7 as stated: the file consisting of the single
comment line `// type: "varchar"` contains `type: "varchar"` on line 1 and
no `length:` in the window, yet no error at line 1 mentions a length
specification — the per-line loop skips `//` comment lines. -/
theorem C7_counterexample_comment_line :
    includesL ("// type: \"varchar\"" : String).data
        "type: \"varchar\"".data = true ∧
    (validateCubeFile "users.table.cube" "users"
        (Except.ok "// type: \"varchar\"")).errors.filter (isVarcharErrAt 1)
      = [] := by decide

/-- Witness for the amended C7 on a one-line file declaring a varchar with
no `length:` in the window. -/
theorem C7_varchar_length_window_witness :
    ((validateCubeFile "users.table.cube" "users"
        (Except.ok "type: \"varchar\"")).errors.filter (isVarcharErrAt 1) =
      (if (((splitLines ("type: \"varchar\"" : String).data).drop (1 - 1)).take
          5).any (fun l => includesL l "length:".data) then []
       else [⟨"users", VKind.varcharNoLength, 1⟩])) ∧
    includesL (renderMessage VKind.varcharNoLength).data
      "length specification".data = true :=
  C7_varchar_length_window "users.table.cube" "users" "type: \"varchar\"" 1
    (by decide) (by decide) (by decide) (by decide)

end CubeValidator

namespace Schema

open SchemaBuilder

/-- C2: in a `refreshTables`/`freshTables` pass, a file whose extracted
foreign-key dependencies intersect the already-failed table names is
skipped: the step is independent of the engine outcome (no engine
interaction), records exactly one dependency error whose message names the
offending prerequisites (`dep0 :: missingRest`, the dependencies found in
the failed set, `dep0` first) and whose line number locates `dep0`'s
reference, adds the file's own table name to the failed set, and does not
break the loop; and the check runs strictly after per-file validation: had
validation failed, the validation error (not the dependency error) is the
one recorded.  `verb` covers both passes ("refresh"/"create"). -/
theorem C2_dependency_skip_after_validation (verb : String) (st : PassState)
    (f : CubeFile) (hfile : f.isFile = true) (hval : f.validation = none)
    (dep0 : String) (missingRest : List String)
    (hmiss : (extractForeignKeyDependencies f.content.data).filter
        (fun dep => setHas st.failedTables dep) = dep0 :: missingRest) :
    (∀ e1 e2 : EngineOutcome,
      processFile verb { f with engine := e1 } st
        = processFile verb { f with engine := e2 } st) ∧
    (processFile verb f st).1.errors
      = st.errors ++
        [⟨f.tableName,
          "Cannot " ++ verb ++ " table " ++ String.mk [squote]
            ++ f.tableName ++ String.mk [squote]
            ++ " because it depends on failed table(s): "
            ++ String.intercalate ", " (dep0 :: missingRest),
          f.file,
          some (findForeignKeyLineNumber f.content.data dep0)⟩] ∧
    (processFile verb f st).1.failedTables
      = setAdd st.failedTables f.tableName ∧
    (processFile verb f st).2 = false ∧
    dep0 ∈ st.failedTables ∧
    dep0 ∈ extractForeignKeyDependencies f.content.data ∧
    (∀ verr : SProcessError,
      (processFile verb { f with validation := some verr } st).1.errors
        = st.errors ++ [verr]) := by
  have hdep : dep0 ∈ (extractForeignKeyDependencies f.content.data).filter
      (fun dep => setHas st.failedTables dep) := by
    rw [hmiss]
    exact List.mem_cons_self _ _
  have hdep2 := List.mem_filter.mp hdep
  refine ⟨?_, ?_, ?_, ?_, ?_, ?_, ?_⟩
  · intro e1 e2
    simp only [processFile, hfile, hval, hmiss, if_true]
  · simp only [processFile, hfile, hval, hmiss, if_true]
  · simp only [processFile, hfile, hval, hmiss, if_true]
  · simp only [processFile, hfile, hval, hmiss, if_true]
  · simpa [setHas] using hdep2.2
  · exact hdep2.1
  · intro verr
    simp only [processFile, hfile, if_true]

/-- Witness for C2: `orders` depends on `users`, and `users` has already
failed. -/
theorem C2_dependency_skip_after_validation_witness :
    (∀ e1 e2 : EngineOutcome,
      processFile "refresh" { wFile with engine := e1 } wSt
        = processFile "refresh" { wFile with engine := e2 } wSt) ∧
    (processFile "refresh" wFile wSt).1.errors
      = wSt.errors ++
        [⟨wFile.tableName,
          "Cannot " ++ "refresh" ++ " table " ++ String.mk [squote]
            ++ wFile.tableName ++ String.mk [squote]
            ++ " because it depends on failed table(s): "
            ++ String.intercalate ", " ("users" :: []),
          wFile.file,
          some (findForeignKeyLineNumber wFile.content.data "users")⟩] ∧
    (processFile "refresh" wFile wSt).1.failedTables
      = setAdd wSt.failedTables wFile.tableName ∧
    (processFile "refresh" wFile wSt).2 = false ∧
    "users" ∈ wSt.failedTables ∧
    "users" ∈ extractForeignKeyDependencies wFile.content.data ∧
    (∀ verr : SProcessError,
      (processFile "refresh" { wFile with validation := some verr } wSt).1.errors
        = wSt.errors ++ [verr]) :=
  C2_dependency_skip_after_validation "refresh" wSt wFile rfl rfl
    "users" [] (by decide)

end Schema
